import Mathlib

/-!
Verification of the drift-guardian fact-extraction and comparison engine.

Each definition is a shallow embedding of the corresponding JavaScript
function from the repository source (the docs-drift / logic-drift
detectors).  JavaScript strings are modelled as Lean `String`
(`List Char` underneath), JavaScript numbers that reach comparison
operators are modelled as `Option ℚ` (`none` standing for any non-finite
result: NaN or an infinity, which `Number.isFinite` rejects), and the
regular-expression engine is abstracted as an oracle function wherever a
user-supplied pattern is executed.  Built-in patterns that a claim
depends on (path templating, the class-name extractor) are implemented
directly as character scanners.
-/

namespace DriftGuardian

/-- Left brace character, written via its code point. -/
def lbrace : Char := Char.ofNat 123

/-- Right brace character, written via its code point. -/
def rbrace : Char := Char.ofNat 125

/-- The whitespace characters recognised by the model of JavaScript
`String.prototype.trim` and of the `\s` character class (ASCII fragment). -/
def isJsWs (c : Char) : Bool :=
  c == ' ' || c == '\t' || c == '\n' || c == '\r' || c == Char.ofNat 11 || c == Char.ofNat 12

/-- Model of JavaScript `String.prototype.trim` on character lists. -/
def jsTrim (l : List Char) : List Char :=
  ((l.dropWhile isJsWs).reverse.dropWhile isJsWs).reverse

/-- `jsTrim` lifted to strings. -/
def jsTrimStr (s : String) : String :=
  String.mk (jsTrim s.data)

/-- Model of JavaScript `String.prototype.startsWith`. -/
def strStarts (s pre : String) : Bool :=
  pre.data.isPrefixOf s.data

/-- Model of JavaScript `String.prototype.toUpperCase` (ASCII fragment). -/
def jsToUpper (s : String) : String :=
  String.mk (s.data.map Char.toUpper)

/-- Model of JavaScript `String.prototype.toLowerCase` (ASCII fragment). -/
def jsToLower (s : String) : String :=
  String.mk (s.data.map Char.toLower)

/-- Splitting a character list into maximal runs of non-whitespace
characters; models JavaScript `.split(/\s+/).filter(Boolean)`. -/
def wsSplitAux (cur : List Char) : List Char → List (List Char)
  | [] => if cur = [] then [] else [cur]
  | c :: rest =>
    if isJsWs c then
      if cur = [] then wsSplitAux [] rest else cur :: wsSplitAux [] rest
    else
      wsSplitAux (cur ++ [c]) rest

/-- Whitespace-run tokenisation. -/
def wsSplit (l : List Char) : List (List Char) :=
  wsSplitAux [] l

/-- Model of JavaScript `Array.prototype.join(',')` at the character level. -/
def joinCommaL : List (List Char) → List Char
  | [] => []
  | [x] => x
  | x :: xs => x ++ ',' :: joinCommaL xs

/-- Model of JavaScript `Array.prototype.join(',')` on strings. -/
def joinComma (ps : List String) : String :=
  String.mk (joinCommaL (ps.map String.data))

/-- Model of JavaScript `Array.prototype.join(', ')` on strings. -/
def joinCommaSpace (ps : List String) : String :=
  String.intercalate ", " ps

/-- Model of a JavaScript `Set` insert on an insertion-ordered list. -/
def addSet (l : List String) (x : String) : List String :=
  if l.contains x then l else l ++ [x]

/-- Source `uniqueKeys` (`Array.from(new Set(keys))`): first-occurrence
deduplication.  The `seen` accumulator plays the role of the `Set`. -/
def uniqueKeysAux (seen : List String) : List String → List String
  | [] => []
  | k :: ks =>
    if seen.contains k then uniqueKeysAux seen ks
    else k :: uniqueKeysAux (k :: seen) ks

/-- Source `uniqueKeys`. -/
def uniqueKeys (l : List String) : List String :=
  uniqueKeysAux [] l

/-! ## Parameter-list normalization (source: `splitParams`,
`normalizeParamName`, `normalizeParamList`, `stripToken`,
`isGoTypeToken`, `isTypeToken`, `paramKey`, `extractSignatureParams`). -/

/-- One step of the source `splitParams` loop: bracket-depth-aware split on
top-level commas.  The depth update mirrors the `if/else if` at the top of
the loop body (`Math.max(0, depth - 1)` is `Nat` subtraction). -/
def splitParamsCore : List Char → List Char → Nat → List (List Char)
  | [], current, _ => if current = [] then [] else [current]
  | ch :: rest, current, depth =>
    let depth' :=
      if ch == '(' || ch == '[' || ch == lbrace || ch == '<' then depth + 1
      else if ch == ')' || ch == ']' || ch == rbrace || ch == '>' then depth - 1
      else depth
    if ch == ',' && depth' == 0 then
      current :: splitParamsCore rest [] depth'
    else
      splitParamsCore rest (current ++ [ch]) depth'

/-- Source `splitParams`. -/
def splitParams (text : String) : List String :=
  (splitParamsCore text.data [] 0).map String.mk

/-- Source `stripToken`, first clause: `replace(/^[.\s]+/, '')`. -/
def dropDotWs (l : List Char) : List Char :=
  l.dropWhile (fun c => c == '.' || isJsWs c)

/-- Characters kept by `stripToken`'s `replace(/[^A-Za-z0-9_$-]/g, '')`. -/
def isKeepChar (c : Char) : Bool :=
  c.isAlphanum || c == '_' || c == '$' || c == '-'

/-- Source `stripToken` on character lists. -/
def stripTokenL (l : List Char) : List Char :=
  (dropDotWs l).filter isKeepChar

/-- Source `stripToken`. -/
def stripToken (t : String) : String :=
  String.mk (stripTokenL t.data)

/-- Source `isGoTypeToken`.  `normalized` is the token with `,` and `)`
removed (`replace(/[,)]/g, '')`). -/
def isGoTypeToken (token : String) : Bool :=
  if token = "" then false else
  let normalized : List Char := token.data.filter (fun c => !(c == ',' || c == ')'))
  let goTypes : List String :=
    ["string", "int", "int64", "int32", "int16", "int8",
     "uint", "uint64", "uint32", "uint16", "uint8",
     "float64", "float32", "bool", "error", "byte", "rune", "any"]
  if goTypes.contains (String.mk normalized) then true
  else if ('[' :: ']' :: []).isPrefixOf normalized then true
  else if ("map[".data).isPrefixOf normalized then true
  else if ('*' :: []).isPrefixOf normalized then true
  else if normalized.contains '.' || normalized.contains '[' || normalized.contains ']' then true
  else false

/-- Source `isTypeToken`. -/
def isTypeToken (token : String) : Bool :=
  if token = "" then false else
  let normalized : List Char := token.data.filter (fun c => !(c == ',' || c == ')'))
  if ('[' :: ']' :: []).isPrefixOf normalized then true
  else if ('*' :: []).isPrefixOf normalized then true
  else if ("map[".data).isPrefixOf normalized then true
  else if normalized.any (fun c => c == '.' || c == '<' || c == '>' || c == '[' || c == ']') then true
  else match normalized with
    | [] => false
    | c :: _ => c.isUpper

/-- Source `replace(/^\.\.\./, '')`: drop one leading ellipsis. -/
def dropEllipsis : List Char → List Char
  | '.' :: '.' :: '.' :: r => r
  | l => l

/-- Source `normalizeParamName`.  The whitespace-token list is empty
exactly when the pre-`:` part of the cleaned text trims to nothing (for
example `":x"`): the source then reaches `stripToken(tokens[tokens.length
- 1])` with an `undefined` argument and `undefined.replace` throws a
`TypeError`, modelled by `none`.  (The earlier `isGoTypeToken(undefined)`
and `isTypeToken(undefined)` calls return `false` through their falsy
guards, so the throw in `stripToken` is always reached in that case.) -/
def normalizeParamName (text : String) : Option String :=
  if text = "" then some "" else
  let cleaned := jsTrim text.data
  if cleaned = [] then some "" else
  let cleaned := dropEllipsis cleaned
  let cleaned := cleaned.filter (fun c => !(c == '?'))
  let cleaned := jsTrim (cleaned.takeWhile (fun c => !(c == '=')))
  if cleaned = [] then some "" else
  let cleaned := if cleaned.contains ':' then jsTrim (cleaned.takeWhile (fun c => !(c == ':'))) else cleaned
  match wsSplit cleaned with
  | [] => none
  | [t] => some (String.mk (stripTokenL t))
  | t :: ts =>
    let first := String.mk t
    let last := String.mk (ts.getLastD t)
    some (if isGoTypeToken last then stripToken first
      else if isTypeToken first && !isTypeToken last then stripToken last
      else if isTypeToken last && !isTypeToken first then stripToken first
      else stripToken last)

/-- The `.map(normalizeParamName)` step of `normalizeParamList`: `none`
as soon as one name throws, the name list otherwise (JavaScript `map`
propagates the first exception). -/
def normalizeNames : List String → Option (List String)
  | [] => some []
  | p :: ps =>
    match normalizeParamName p with
    | none => none
    | some n =>
      match normalizeNames ps with
      | none => none
      | some ns => some (n :: ns)

/-- Source `normalizeParamList`: split, normalize each name (`none`
propagating a thrown `TypeError`), then `filter(Boolean)`. -/
def normalizeParamList (text : String) : Option (List String) :=
  if text = "" then some [] else
  (normalizeNames (splitParams text)).map (fun l => l.filter (fun s => s ≠ ""))

/-- Source `paramKey` (`params.join(',')`). -/
def paramKey (params : List String) : String :=
  joinComma params

/-- The line terminators that `.` does not match in a JavaScript regex
without the `s` flag: LF, CR, U+2028 and U+2029. -/
def isLineTerm (c : Char) : Bool :=
  c == '\n' || c == '\r' || c == Char.ofNat 0x2028 || c == Char.ofNat 0x2029

/-- The match of `/\((.*)\)/`: the engine attempts the pattern at each
index in turn, so the match anchors at the first `(` that is followed by
a `)` with no line terminator in between (`.` does not cross lines), and
the greedy `.*` capture runs to the last such `)` on that line.  `none`
models a failed match. -/
def sigParenScan : List Char → Option (List Char)
  | [] => none
  | c :: rest =>
    if c = '(' then
      let seg := rest.takeWhile (fun d => !(isLineTerm d))
      match seg.reverse.dropWhile (fun d => !(d == ')')) with
      | ')' :: revInner => some revInner.reverse
      | _ => sigParenScan rest
    else sigParenScan rest

/-- Source `extractSignatureParams`: the capture of
`signature.match(/\((.*)\)/)`, or `''` when the pattern does not match. -/
def extractSignatureParams (signature : String) : String :=
  match sigParenScan signature.data with
  | some inner => String.mk inner
  | none => ""

/-! ## Findings, entities and the function comparator (source:
`normalizeSeverity`, `buildEntity`, `getLineNumber`, `intersectionSize`,
`difference`, `chooseBestParamMatch`, `compareFunctions`). -/

/-- A drift Finding.  Docs-drift findings carry no `rule` field in the
source; the model leaves it `""` for them. -/
structure Finding where
  source : String
  type : String
  severity : String
  deterministic : Bool
  rule : String
  file : String
  explanation : String
  suggestion : String
deriving Repr, DecidableEq

/-- A code entity produced by `buildEntity`. -/
structure Entity where
  type : String
  name : String
  signature : String
  file : String
  line : Nat
deriving Repr, DecidableEq

/-- A documentation-side function fact, as produced by
`extractDocFunctions` (whose regex scan is treated as an input here). -/
structure DocFn where
  name : String
  params : String
  signature : String
  file : String
deriving Repr, DecidableEq

/-- Source `getLineNumber`: `content.slice(0, index).split('\n').length`. -/
def getLineNumber (content : String) (index : Nat) : Nat :=
  ((content.data.take index).filter (fun c => c == '\n')).length + 1

/-- Source `buildEntity`. -/
def buildEntity (type name params file content : String) (index : Nat) : Entity :=
  let signature :=
    if params = "" then name
    else name ++ "(" ++ joinCommaSpace (((params.splitOn ",").map jsTrimStr).filter (fun p => p ≠ "")) ++ ")"
  ⟨type, name, signature, file, getLineNumber content index⟩

/-- Source `normalize` in `utils/severity.js`. -/
def normSeverityValue (v : String) : String :=
  if v = "" then "" else
  let lv := jsToLower v
  if lv = "critical" ∨ lv = "error" ∨ lv = "warning" ∨ lv = "info" then lv else ""

/-- Source `normalizeSeverity`. -/
def normalizeSeverity (value fallback : String) : String :=
  let normalized := normSeverityValue value
  if normalized ≠ "" then normalized else
  let fallbackNormalized := normSeverityValue fallback
  if fallbackNormalized ≠ "" then fallbackNormalized else "warning"

/-- Source `intersectionSize`: how many items of `a` (counted with
multiplicity) occur in `b`. -/
def intersectionSize (a b : List String) : Nat :=
  (a.filter (fun item => b.contains item)).length

/-- Source `difference`: items of `a` not occurring in `b`. -/
def difference (a b : List String) : List String :=
  a.filter (fun item => !(b.contains item))

/-- A documented variant stored in `docByName`. -/
structure Variant where
  params : List String
  file : String
  signature : String
deriving Repr, DecidableEq

/-- The score computed inside `chooseBestParamMatch`:
`overlap * 2 - totalDiff`. -/
def score (codeParams variantParams : List String) : Int :=
  2 * (intersectionSize codeParams variantParams : Int)
    - (difference codeParams variantParams).length
    - (difference variantParams codeParams).length

/-- The loop of `chooseBestParamMatch`: fold over the variants carrying
`(best, bestScore)`, updating on a strictly greater score. -/
def foldBest (codeParams : List String) (acc : Variant × Int) (vs : List Variant) : Variant × Int :=
  vs.foldl (fun acc v =>
    let s := score codeParams v.params
    if acc.2 < s then (v, s) else acc) acc

/-- Source `chooseBestParamMatch`: `best` starts at `docVariants[0]` and
`bestScore` at `-1`; the source never calls it on an empty list, for which
the model returns a dummy variant. -/
def chooseBestParamMatch (codeParams : List String) (docVariants : List Variant) : Variant :=
  match docVariants with
  | [] => ⟨[], "", ""⟩
  | v0 :: _ => (foldBest codeParams (v0, -1) docVariants).1

/-- The variant built for one doc fact while `compareFunctions` fills
`docByName`; `none` when `normalizeParamList(docFn.params)` throws. -/
def mkVariant (d : DocFn) : Option Variant :=
  (normalizeParamList d.params).map (fun ps => Variant.mk ps d.file d.signature)

/-- Building the variants of a doc-fact list in order, propagating a
thrown `TypeError` as `none`. -/
def mkVariants : List DocFn → Option (List Variant)
  | [] => some []
  | d :: ds =>
    match mkVariant d with
    | none => none
    | some v =>
      match mkVariants ds with
      | none => none
      | some vs => some (v :: vs)

/-- The `docByName` map of `compareFunctions`, as a lookup: all variants
whose doc fact has the given name, in document order (`none` when one of
them throws while the map is built). -/
def docByName (docFns : List DocFn) (name : String) : Option (List Variant) :=
  mkVariants (docFns.filter (fun d => d.name = name))

/-- Mutable state of the `compareFunctions` main loop. -/
structure CFState where
  codeNames : List String
  seen : List String
  results : List Finding
deriving Repr, DecidableEq

/-- One iteration of the `for (const fn of codeFunctions)` loop of
`compareFunctions` (lines 1258–1321 of the detector); `none` models a
`TypeError` thrown while normalizing the fact's parameter list.  The
`docByName` lookup is `none`-matched for totality only: the wrapper
checks the map built from all doc facts before the loop runs, as the
source does. -/
def compareFnStep (sev : String) (docFns : List DocFn) (st : CFState) (fn : Entity) : Option CFState :=
  let codeNames := addSet st.codeNames fn.name
  match normalizeParamList (extractSignatureParams fn.signature) with
  | none => none
  | some codeParams =>
  let codeKey := paramKey codeParams
  match docByName docFns fn.name with
  | none => none
  | some docVariants =>
  let seenKey := fn.name ++ ":" ++ codeKey
  if st.seen.contains seenKey then some ⟨codeNames, st.seen, st.results⟩ else
  let seen := addSet st.seen seenKey
  if docVariants.isEmpty then
    some ⟨codeNames, seen, st.results ++
      [⟨"docs-drift", "function-missing-doc", sev, true, "", fn.file,
        "Function " ++ fn.signature ++ " is not documented.",
        "Add or update docs to include this function."⟩]⟩
  else if docVariants.any (fun variant => paramKey variant.params = codeKey) then
    some ⟨codeNames, seen, st.results⟩
  else
    let best := chooseBestParamMatch codeParams docVariants
    let missing := difference codeParams best.params
    let extra := difference best.params codeParams
    if missing.length > 0 ∧ extra.length = 0 then
      some ⟨codeNames, seen, st.results ++
        [⟨"docs-drift", "function-missing-params", sev, true, "", fn.file,
          "Docs for " ++ fn.name ++ " are missing params: " ++ joinCommaSpace missing ++ ".",
          "Update docs to include the missing parameters."⟩]⟩
    else if extra.length > 0 ∧ missing.length = 0 then
      some ⟨codeNames, seen, st.results ++
        [⟨"docs-drift", "function-extra-params", sev, true, "", fn.file,
          "Docs for " ++ fn.name ++ " include removed params: " ++ joinCommaSpace extra ++ ".",
          "Update docs to remove parameters that no longer exist."⟩]⟩
    else
      some ⟨codeNames, seen, st.results ++
        [⟨"docs-drift", "function-signature-mismatch", sev, true, "", fn.file,
          "Docs mention " ++ best.signature ++ " but code uses " ++ fn.signature ++ ".",
          "Update docs or code to align parameters."⟩]⟩

/-- The main loop of `compareFunctions`, stopping at the first thrown
`TypeError`. -/
def compareFnFold (sev : String) (docFns : List DocFn) : CFState → List Entity → Option CFState
  | st, [] => some st
  | st, fn :: rest =>
    match compareFnStep sev docFns st fn with
    | none => none
    | some st' => compareFnFold sev docFns st' rest

/-- Source `compareFunctions`.  `sev` is the already-normalised docs-drift
severity (`normalizeSeverity(config.output.severity.docsDrift, 'warning')`
in the source).  `none` models a thrown `TypeError`: the source builds the
`docByName` map — normalizing every doc fact's parameters — before the
code loop, so a doc-side throw precedes the loop. -/
def compareFunctions (entities : List Entity) (docFns : List DocFn) (sev : String) (fullScan : Bool) : Option (List Finding) :=
  let codeFunctions := entities.filter (fun e => e.type = "function")
  if codeFunctions.isEmpty then some [] else
  match mkVariants docFns with
  | none => none
  | some _ =>
  match compareFnFold sev docFns ⟨[], [], []⟩ codeFunctions with
  | none => none
  | some st =>
  if fullScan then
    some (docFns.foldl (fun (acc : List String × List Finding) docFn =>
      if st.codeNames.contains docFn.name then acc
      else if acc.1.contains docFn.name then acc
      else (acc.1 ++ [docFn.name], acc.2 ++
        [⟨"docs-drift", "docs-mentions-missing-function", sev, true, "", docFn.file,
          "Docs mention " ++ docFn.signature ++ " but no matching code was found.",
          "Remove or update the docs, or restore the missing function."⟩]))
      (([] : List String), st.results)).2
  else some st.results

/-! ## Path normalization and the endpoint comparator (source:
`normalizePath`, `parseEndpointName`, `compareEndpoints`).  The two global
replaces of `normalizePath` are implemented as left-to-right character
scanners with an explicit fuel argument (structural recursion; the
wrappers always supply sufficient fuel). -/

/-- Scanner for `replace(/\{[^}]+\}/g, ':param')`: at a left brace whose
matching text has at least one character before the next right brace, emit
`:param` and continue after that right brace; otherwise copy one character
and continue. -/
def braceReplF : Nat → List Char → List Char
  | 0, l => l
  | _ + 1, [] => []
  | fuel + 1, c :: rest =>
    if c = lbrace then
      let inner := rest.takeWhile (fun ch => !(ch == rbrace))
      let rest' := rest.dropWhile (fun ch => !(ch == rbrace))
      if rest' = [] then c :: braceReplF fuel rest
      else if inner = [] then c :: braceReplF fuel rest
      else (":param").data ++ braceReplF fuel rest'.tail
    else c :: braceReplF fuel rest

/-- `replace(/\{[^}]+\}/g, ':param')`. -/
def braceRepl (l : List Char) : List Char :=
  braceReplF (l.length + 1) l

/-- Scanner for `replace(/:[^/]+/g, ':param')`: at a colon followed by at
least one non-slash character, emit `:param` and continue at the next
slash (or the end); otherwise copy one character and continue. -/
def colonReplF : Nat → List Char → List Char
  | 0, l => l
  | _ + 1, [] => []
  | fuel + 1, c :: rest =>
    if c = ':' then
      let tok := rest.takeWhile (fun ch => !(ch == '/'))
      if tok = [] then c :: colonReplF fuel rest
      else (":param").data ++ colonReplF fuel (rest.dropWhile (fun ch => !(ch == '/')))
    else c :: colonReplF fuel rest

/-- `replace(/:[^/]+/g, ':param')`. -/
def colonRepl (l : List Char) : List Char :=
  colonReplF (l.length + 1) l

/-- Source `replace(/\/+$/, '')`. -/
def stripTrailingSlashes (l : List Char) : List Char :=
  (l.reverse.dropWhile (fun c => c == '/')).reverse

/-- Source `normalizePath`. -/
def normalizePath (pathValue : String) : String :=
  if pathValue = "" then "" else
  let normalized := jsTrim pathValue.data
  let normalized := stripTrailingSlashes normalized
  let normalized := braceRepl normalized
  let normalized := colonRepl normalized
  if normalized = [] then "/" else String.mk normalized

/-- Source `parseEndpointName`: split the trimmed name on whitespace; the
first part upper-cased is the method, the rest re-joined with single
spaces is the path; fewer than two parts yields `null`. -/
def parseEndpointName (name : String) : Option (String × String) :=
  if name = "" then none else
  match (wsSplit (jsTrim name.data)).map String.mk with
  | [] => none
  | [_] => none
  | m :: rest => some (jsToUpper m, String.intercalate " " rest)

/-- A documentation-side endpoint fact, as produced by
`extractDocEndpoints` (its regex scan is treated as an input; the source
upper-cases the method there). -/
structure DocEndpoint where
  method : String
  path : String
  file : String
deriving Repr, DecidableEq

/-- The `docMap` entry of `compareEndpoints` for a normalized path: the
methods of all doc endpoints normalising to it, first occurrence first
(insertion-ordered `Set`). -/
def docMethodsFor (docEndpoints : List DocEndpoint) (np : String) : List String :=
  uniqueKeys ((docEndpoints.filter (fun d => normalizePath d.path = np)).map (fun d => d.method))

/-- State of the `compareEndpoints` code loop. -/
structure CEState where
  codeEndpointSet : List String
  seen : List String
  results : List Finding
deriving Repr, DecidableEq

/-- One iteration of the `for (const endpoint of codeEndpoints)` loop of
`compareEndpoints`. -/
def compareEpStep (sev : String) (docEndpoints : List DocEndpoint) (st : CEState) (endpoint : Entity) : CEState :=
  match parseEndpointName endpoint.name with
  | none => st
  | some (method, path) =>
    let np := normalizePath path
    let key := method ++ " " ++ np
    let codeEndpointSet := addSet st.codeEndpointSet key
    if st.seen.contains key then ⟨codeEndpointSet, st.seen, st.results⟩ else
    let seen := addSet st.seen key
    let docMethods := docMethodsFor docEndpoints np
    if docMethods.isEmpty then
      ⟨codeEndpointSet, seen, st.results ++
        [⟨"docs-drift", "endpoint-missing-doc", sev, true, "", endpoint.file,
          "Endpoint " ++ method ++ " " ++ path ++ " is not documented.",
          "Update docs to include this endpoint."⟩]⟩
    else if docMethods.contains method then
      ⟨codeEndpointSet, seen, st.results⟩
    else
      ⟨codeEndpointSet, seen, st.results ++
        [⟨"docs-drift", "endpoint-method-mismatch", sev, true, "", endpoint.file,
          "Docs list " ++ joinCommaSpace docMethods ++ " for " ++ path ++ ", but code uses " ++ method ++ ".",
          "Align the documented method with code."⟩]⟩

/-- Source `compareEndpoints` (the `extractDocEndpoints` scan over the doc
entries is received as `docEndpoints`). -/
def compareEndpoints (entities : List Entity) (docEndpoints : List DocEndpoint) (sev : String) (fullScan : Bool) : List Finding :=
  let codeEndpoints := entities.filter (fun e => e.type = "endpoint")
  if codeEndpoints.isEmpty then [] else
  let st := codeEndpoints.foldl (compareEpStep sev docEndpoints) ⟨[], [], []⟩
  if fullScan then
    docEndpoints.foldl (fun acc doc =>
      let key := doc.method ++ " " ++ normalizePath doc.path
      if st.codeEndpointSet.contains key then acc
      else acc ++
        [⟨"docs-drift", "docs-mentions-missing-endpoint", sev, true, "", doc.file,
          "Docs mention " ++ doc.method ++ " " ++ doc.path ++ " but no matching code was found.",
          "Remove or update the docs, or restore the endpoint."⟩]) st.results
  else st.results

/-- A path template: the common abstraction of a concrete path written
with `new-style` brace placeholders or `:name` colon placeholders. -/
inductive PathSeg
  | lit (s : String)
  | param (p : String)
deriving Repr, DecidableEq

/-- A literal segment usable in both placeholder styles: non-empty, no
whitespace, and none of the four template metacharacters. -/
def goodLit (s : String) : Prop :=
  s ≠ "" ∧ ∀ c ∈ s.data, isJsWs c = false ∧ c ≠ lbrace ∧ c ≠ rbrace ∧ c ≠ '/' ∧ c ≠ ':'

/-- A parameter name usable in both placeholder styles: non-empty, no
whitespace, no braces, no slash. -/
def goodParam (p : String) : Prop :=
  p ≠ "" ∧ ∀ c ∈ p.data, isJsWs c = false ∧ c ≠ lbrace ∧ c ≠ rbrace ∧ c ≠ '/'

/-- Well-formedness of a template segment. -/
def goodSeg : PathSeg → Prop
  | .lit s => goodLit s
  | .param p => goodParam p

/-- Render a template in brace-placeholder style. -/
def renderBrace : List PathSeg → List Char
  | [] => []
  | .lit s :: rest => '/' :: (s.data ++ renderBrace rest)
  | .param p :: rest => '/' :: lbrace :: (p.data ++ rbrace :: renderBrace rest)

/-- Render a template in colon-placeholder style. -/
def renderColon : List PathSeg → List Char
  | [] => []
  | .lit s :: rest => '/' :: (s.data ++ renderColon rest)
  | .param p :: rest => '/' :: ':' :: (p.data ++ renderColon rest)

/-- The canonical form: every placeholder collapsed to `:param`. -/
def renderCanon : List PathSeg → List Char
  | [] => []
  | .lit s :: rest => '/' :: (s.data ++ renderCanon rest)
  | .param _ :: rest => '/' :: ((":param").data ++ renderCanon rest)

/-! ## Payload-key rename detection (source: `findPayloadKeyRenames`,
`comparePayloadKeyRenames`, `compileAllowlist`, `matchesAllowlist`).
The per-line token extraction `extractPayloadKeysFromLine` is a battery
of regex scans; it is abstracted as the oracle `extractKeys`.  Compiled
`RegExp` matchers are abstracted as boolean predicates on strings, and
the diff text is received already split into lines. -/

/-- An allowlist matcher: the `.test` method of a compiled `RegExp`. -/
abbrev Matcher := String → Bool

/-- Source `matchesAllowlist`: an empty compiled allowlist admits every
key. -/
def matchesAllowlist (key : String) (allowlist : List Matcher) : Bool :=
  if allowlist.isEmpty then true else allowlist.any (fun m => m key)

/-- Model of JavaScript `String.prototype.lastIndexOf` for a single
character: the greatest index holding `c`, or `-1`. -/
def jsLastIndexOf (c : Char) (s : String) : Int :=
  match (s.data.reverse.takeWhile (fun ch => !(ch == c))).length, s.data.contains c with
  | n, true => (s.data.length : Int) - 1 - n
  | _, false => -1

/-- Source `compileAllowlist`.  Entries are strings here (`RegExp`-typed
entries are covered by the oracle as well); `mkRegex` abstracts the two
`new RegExp` constructions for `/body/flags` and wildcard entries, and a
plain entry compiles to exact equality (the source's
`new RegExp('^' + escapeRegExp(raw) + '$')`). -/
def compileAllowlist (allowlist : List String) (mkRegex : String → Matcher) : List Matcher :=
  if allowlist.isEmpty then [] else
  allowlist.filterMap (fun entry =>
    if entry = "" then none else
    let raw := jsTrimStr entry
    if raw = "" then none
    else if strStarts raw "/" && jsLastIndexOf '/' raw > 0 then some (mkRegex raw)
    else if raw.data.contains '*' || raw.data.contains '?' then some (mkRegex raw)
    else some (fun k => k = raw))

/-- A rename candidate. -/
structure Rename where
  oldKey : String
  newKey : String
deriving Repr, DecidableEq

/-- The `finalizeHunk` closure of `findPayloadKeyRenames`: the candidate
(if any) produced from one hunk's removed and added token lists. -/
def hunkCandidate (allowlist : List Matcher) (removed added : List String) : List Rename :=
  if removed = [] ∧ added = [] then [] else
  match uniqueKeys removed, uniqueKeys added with
  | [oldKey], [newKey] =>
    if oldKey ≠ newKey ∧ (matchesAllowlist oldKey allowlist || matchesAllowlist newKey allowlist) = true then
      [⟨oldKey, newKey⟩]
    else []
  | _, _ => []

/-- State of the `findPayloadKeyRenames` line loop. -/
structure HunkState where
  removed : List String
  added : List String
  renames : List Rename
deriving Repr

/-- One iteration of the line loop of `findPayloadKeyRenames`. -/
def renameStep (extractKeys : String → List String) (allowlist : List Matcher) (st : HunkState) (line : String) : HunkState :=
  if strStarts line "@@" then
    ⟨[], [], st.renames ++ hunkCandidate allowlist st.removed st.added⟩
  else if strStarts line "+++" || strStarts line "---" then st
  else if strStarts line "+" then
    { st with added := st.added ++ extractKeys (line.drop 1) }
  else if strStarts line "-" then
    { st with removed := st.removed ++ extractKeys (line.drop 1) }
  else st

/-- Source `findPayloadKeyRenames`, over the diff's line list (the source
first does `diffText.split('\n')`). -/
def findPayloadKeyRenames (extractKeys : String → List String) (lines : List String) (allowlist : List Matcher) : List Rename :=
  let st := lines.foldl (renameStep extractKeys allowlist) ⟨[], [], []⟩
  st.renames ++ hunkCandidate allowlist st.removed st.added

/-- The documentation payload-key index built by `extractDocPayloadKeys`:
key → files mentioning it (the scan itself is treated as input). -/
abbrev DocKeyMap := List (String × List String)

/-- `Map.prototype.has` on the doc key index. -/
def mapHas (m : DocKeyMap) (k : String) : Bool :=
  (m.find? (fun e => e.1 = k)).isSome

/-- `Map.prototype.get` with `[]` default, as used for the doc hint. -/
def mapGet (m : DocKeyMap) (k : String) : List String :=
  match m.find? (fun e => e.1 = k) with
  | some e => e.2
  | none => []

/-- The Finding pushed by `comparePayloadKeyRenames` for one accepted
rename. -/
def mkRenameFinding (docPayloadKeys : DocKeyMap) (sev file : String) (r : Rename) : Finding :=
  let docFiles := (mapGet docPayloadKeys r.oldKey).take 3
  let docHint :=
    if docFiles.length > 0 then
      " Docs mention " ++ r.oldKey ++ " in " ++ joinCommaSpace docFiles ++ "."
    else ""
  ⟨"docs-drift", "payload-key-rename", sev, true, "", file,
    "Payload key renamed from " ++ r.oldKey ++ " to " ++ r.newKey ++ "." ++ docHint,
    "Update docs to use the new payload field name or preserve a compatibility alias."⟩

/-- The inner `for (const rename of renames)` loop of
`comparePayloadKeyRenames`. -/
def renameFindings (docPayloadKeys : DocKeyMap) (sev file : String) : List Rename → List Finding
  | [] => []
  | r :: rs =>
    if !(mapHas docPayloadKeys r.oldKey) then renameFindings docPayloadKeys sev file rs
    else if mapHas docPayloadKeys r.newKey then renameFindings docPayloadKeys sev file rs
    else mkRenameFinding docPayloadKeys sev file r :: renameFindings docPayloadKeys sev file rs

/-- Source `comparePayloadKeyRenames`: per changed file, fetch the diff
(`none` models a falsy diff and is skipped), detect renames, and keep
those whose old key is documented while the new key is not. -/
def comparePayloadKeyRenames (extractKeys : String → List String)
    (changedCodeFiles : List String) (getFileDiff : String → Option (List String))
    (docPayloadKeys : DocKeyMap) (allowlist : List Matcher) (sev : String) : List Finding :=
  changedCodeFiles.flatMap (fun file =>
    match getFileDiff file with
    | none => []
    | some lines =>
      renameFindings docPayloadKeys sev file (findPayloadKeyRenames extractKeys lines allowlist))

/-- The tokens collected from the removed lines of a hunk (lines starting
with `-` but not `---`). -/
def removedTokens (extractKeys : String → List String) (lines : List String) : List String :=
  lines.flatMap (fun l =>
    if strStarts l "-" && !(strStarts l "---") then extractKeys (l.drop 1) else [])

/-- The tokens collected from the added lines of a hunk (lines starting
with `+` but not `+++`). -/
def addedTokens (extractKeys : String → List String) (lines : List String) : List String :=
  lines.flatMap (fun l =>
    if strStarts l "+" && !(strStarts l "+++") then extractKeys (l.drop 1) else [])

/-! ## Value interpretation and the deterministic comparator (source:
`parseNumber`, `normalizeValue`, `compareValues`,
`runDeterministicComparisons`).  JavaScript numbers reaching the
comparator are modelled as `Option ℚ`: `none` stands for any value that
`Number.isFinite` rejects (`NaN` and the infinities).  `Number(string)`
is modelled in two stages, following the ECMAScript conversion: the
decimal / hex / octal / binary grammar yields the numeral's exact
mathematical value, which is then rounded to the nearest IEEE 754
binary64 value (ties to even); a rounded result at or beyond `2^1024` is
an infinity, hence `none`.  Every finite double is a rational, so the
rounded values live in `ℚ` exactly. -/

/-- Numeric value of a digit list in the given base (most significant
first); `none` if any character is not a digit of that base. -/
def digitsVal (base : Nat) (l : List Char) : Option Nat :=
  l.foldl (fun acc c =>
    match acc with
    | none => none
    | some n =>
      let d :=
        if c.isDigit then some (c.toNat - '0'.toNat)
        else if 'a' ≤ c ∧ c ≤ 'f' then some (c.toNat - 'a'.toNat + 10)
        else if 'A' ≤ c ∧ c ≤ 'F' then some (c.toNat - 'A'.toNat + 10)
        else none
      match d with
      | some d => if d < base then some (n * base + d) else none
      | none => none) (some 0)

/-- Parse the exponent suffix (`e`/`E`, optional sign, digits) and apply
it to the mantissa; the input must be fully consumed. -/
def parseExpPart (q : ℚ) : List Char → Option ℚ
  | [] => some q
  | e :: rest =>
    if e = 'e' ∨ e = 'E' then
      let (sign, digits) :=
        match rest with
        | '+' :: r => ((1 : Int), r)
        | '-' :: r => ((-1 : Int), r)
        | r => ((1 : Int), r)
      if digits = [] ∨ ¬ digits.all Char.isDigit then none
      else match digitsVal 10 digits with
        | some n => some (q * (10 : ℚ) ^ (sign * n))
        | none => none
    else none

/-- Parse an unsigned decimal numeral (`digits`, `digits.digits`,
`.digits`, `digits.`, each with an optional exponent). -/
def parseDec (l : List Char) : Option ℚ :=
  let ip := l.takeWhile Char.isDigit
  let r1 := l.dropWhile Char.isDigit
  match r1 with
  | '.' :: r2 =>
    let fp := r2.takeWhile Char.isDigit
    let r3 := r2.dropWhile Char.isDigit
    if ip = [] ∧ fp = [] then none
    else
      match digitsVal 10 ip, digitsVal 10 fp with
      | some i, some f => parseExpPart ((i : ℚ) + (f : ℚ) / (10 : ℚ) ^ fp.length) r3
      | _, _ => none
  | _ =>
    if ip = [] then none
    else match digitsVal 10 ip with
      | some i => parseExpPart (i : ℚ) r1
      | none => none

/-- Parse an unsigned numeral with radix prefixes (`0x`, `0o`, `0b`,
upper or lower); these admit no sign in JavaScript. -/
def parseUnsignedPrefixed (l : List Char) : Option ℚ :=
  match l with
  | '0' :: p :: rest =>
    if p = 'x' ∨ p = 'X' then
      if rest = [] then none else (digitsVal 16 rest).map (fun n => (n : ℚ))
    else if p = 'o' ∨ p = 'O' then
      if rest = [] then none else (digitsVal 8 rest).map (fun n => (n : ℚ))
    else if p = 'b' ∨ p = 'B' then
      if rest = [] then none else (digitsVal 2 rest).map (fun n => (n : ℚ))
    else parseDec l
  | _ => parseDec l

/-- The exact mathematical value of a `Number(string)` conversion, before
rounding: the empty or all-whitespace string is `0`, a signed decimal or
unsigned prefixed numeral is its value, and anything else — including the
non-finite `Infinity` spellings — is `none`. -/
def strNumericValue (s : String) : Option ℚ :=
  let t := jsTrim s.data
  if t = [] then some 0 else
  match t with
  | '+' :: rest => if rest = [] then none else parseDec rest
  | '-' :: rest => if rest = [] then none else (parseDec rest).map Neg.neg
  | _ => parseUnsignedPrefixed t

/-- `2^e` in `ℚ` for an integer exponent, via kernel-friendly `Nat`
exponentiation and `Rat.divInt`. -/
def pow2 (e : Int) : ℚ :=
  match e with
  | .ofNat n => ((2 ^ n : Nat) : ℚ)
  | .negSucc n => Rat.divInt 1 ((2 ^ (n + 1) : Nat) : Int)

/-- Base-2 logarithm on `Nat` with an explicit fuel argument (the fuel
`n` always suffices for input `n`). -/
def natLog2F : Nat → Nat → Nat
  | 0, _ => 0
  | fuel + 1, n => if 2 ≤ n then natLog2F fuel (n / 2) + 1 else 0

/-- `⌊log₂ n⌋` (and `0` at `0`). -/
def natLog2 (n : Nat) : Nat :=
  natLog2F n n

/-- Round the fraction `n / d` (for `d > 0`, not necessarily reduced) to
the nearest integer, ties to even: the remainder `n − f·d` is compared
with `d / 2` through the doubled remainder `r2`. -/
def rneFrac (n d : Int) : Int :=
  let f := Int.fdiv n d
  let r2 := 2 * (n - f * d)
  if r2 < d then f
  else if d < r2 then f + 1
  else if f % 2 = 0 then f else f + 1

/-- The binary exponent of a positive rational: the `e` with
`2^e ≤ q < 2^(e+1)`.  The log-difference estimate `e0` is off by at most
one, always from above. -/
def qExp (q : ℚ) : Int :=
  let e0 : Int := (natLog2 q.num.natAbs : Int) - (natLog2 q.den : Int)
  if q < pow2 e0 then e0 - 1 else e0

/-- Round an exact rational to the nearest IEEE 754 binary64 value, ties
to even: `none` is an infinity (rounded magnitude at or beyond `2^1024`),
magnitudes below `2^-1022` round on the fixed subnormal grid of step
`2^-1074`, and normal magnitudes round to 53 significant bits — the
significand is `rneFrac` of the magnitude `n / d` scaled by `2^(e-52)`,
written as one fraction so only integer arithmetic is involved.  Every
finite double is returned as its exact rational value. -/
def roundToDouble (q : ℚ) : Option ℚ :=
  if q = 0 then some 0 else
  let n : Int := (q.num.natAbs : Int)
  let d : Int := (q.den : Int)
  let e := qExp (if q < 0 then -q else q)
  let v : ℚ :=
    if e < -1022 then
      Rat.divInt (rneFrac (n * ((2 ^ 1074 : Nat) : Int)) d) ((2 ^ 1074 : Nat) : Int)
    else
      match e - 52 with
      | .ofNat k =>
        Rat.divInt (rneFrac n (d * ((2 ^ k : Nat) : Int)) * ((2 ^ k : Nat) : Int)) 1
      | .negSucc k =>
        Rat.divInt (rneFrac (n * ((2 ^ (k + 1) : Nat) : Int)) d) ((2 ^ (k + 1) : Nat) : Int)
  if e < -1022 then some (if q < 0 then -v else v)
  else if pow2 1024 ≤ v then none else some (if q < 0 then -v else v)

/-- Model of `Number(string)` restricted to finite results: the numeral's
exact value rounded to the nearest binary64, with `NaN` (ill-formed
numerals) and the infinities — spelled out or produced by overflow — as
`none`. -/
def jsStringToNumber (s : String) : Option ℚ :=
  (strNumericValue s).bind roundToDouble

/-- Source `parseNumber`: strip `,`, space and `_`
(`replace(/[, _]/g, '')`) then convert with `Number`, with `NaN`
(modelled by `none`) preserved. -/
def parseNumber (value : String) : Option ℚ :=
  jsStringToNumber (String.mk (value.data.filter (fun c => !(c == ',' || c == ' ' || c == '_'))))

/-- Source `normalizeValue`: the `(numeric, text)` pair for a value under
a `value_type` setting (already lower-cased by the caller). -/
def normalizeValue (value : String) (valueType : String) : Option ℚ × String :=
  if valueType = "string" then (none, jsTrimStr value)
  else if valueType = "number" ∨ valueType = "int" ∨ valueType = "float" then
    (parseNumber value, jsTrimStr value)
  else
    match parseNumber value with
    | some n => (some n, jsTrimStr value)
    | none => (none, jsTrimStr value)

/-- Model of JavaScript `String.prototype.includes`. -/
def strIncludes (a b : String) : Bool :=
  decide (b.data <:+: a.data)

/-- Source `compareValues`. -/
def compareValues (codeValue policyValue compare valueType : String) : Bool :=
  let code := normalizeValue codeValue valueType
  let policy := normalizeValue policyValue valueType
  match code.1, policy.1 with
  | some codeNum, some policyNum =>
    if compare = "eq" ∨ compare = "equals" then codeNum == policyNum
    else if compare = "not_equals" ∨ compare = "ne" then !(codeNum == policyNum)
    else if compare = "gt" then policyNum < codeNum
    else if compare = "gte" ∨ compare = "ge" then policyNum ≤ codeNum
    else if compare = "lt" then codeNum < policyNum
    else if compare = "lte" ∨ compare = "le" then codeNum ≤ policyNum
    else codeNum == policyNum
  | _, _ =>
    let left := jsToLower code.2
    let right := jsToLower policy.2
    if compare = "not_equals" ∨ compare = "ne" then !(left == right)
    else if compare = "contains" then strIncludes left right || strIncludes right left
    else left == right

/-- A configured logic-drift comparison (`comparisons` entry of a rule);
`code_pattern`/`codePattern` and the flags fields are collapsed into one
pattern string each, with `""` modelling an absent pattern. -/
structure Comparison where
  codePattern : String
  policyPattern : String
  compare : String
  valueType : String
  severity : String
  name : String
  label : String
deriving Repr, DecidableEq

/-- `(comparison.compare || 'equals').toLowerCase()`. -/
def resolvedCompare (c : Comparison) : String :=
  jsToLower (if c.compare = "" then "equals" else c.compare)

/-- `(comparison.value_type || 'auto').toLowerCase()`. -/
def resolvedValueType (c : Comparison) : String :=
  jsToLower (if c.valueType = "" then "auto" else c.valueType)

/-- `comparison.name || comparison.label || ruleName`. -/
def resolvedLabel (c : Comparison) (ruleName : String) : String :=
  if c.name ≠ "" then c.name else if c.label ≠ "" then c.label else ruleName

/-- The dedup key of a `policy-value-missing` Finding. -/
def missingKey (label : String) (codeValues : List String) : String :=
  label ++ ":missing:" ++ joinComma codeValues

/-- The `policy-value-missing` Finding. -/
def missingFinding (severity ruleName file label : String) (codeValues : List String) : Finding :=
  ⟨"logic-drift", "policy-value-missing", severity, true, ruleName, file,
    "Policy value missing for " ++ label ++ ". Code changed to " ++ joinCommaSpace codeValues ++
      " but no matching policy value was found.",
    "Update policy docs to include the value or adjust the code."⟩

/-- The dedup key of a `policy-value-mismatch` Finding. -/
def mismatchKey (label codeValue : String) (policyValues : List String) : String :=
  label ++ ":mismatch:" ++ codeValue ++ ":" ++ joinComma policyValues

/-- The `policy-value-mismatch` Finding. -/
def mismatchFinding (severity ruleName file label codeValue : String) (policyValues : List String) : Finding :=
  ⟨"logic-drift", "policy-value-mismatch", severity, true, ruleName, file,
    "Policy mismatch for " ++ label ++ ". Code uses " ++ codeValue ++ ", policy says " ++
      joinCommaSpace policyValues ++ ".",
    "Align code and policy to the same value."⟩

/-- State of `runDeterministicComparisons`: the `seen` key set and the
accumulated results. -/
structure DetState where
  seen : List String
  results : List Finding
deriving Repr, DecidableEq

/-- The `for (const codeValue of codeValues)` loop body of
`runDeterministicComparisons`. -/
def detValueStep (severity ruleName file label compareOp valueType : String)
    (policyValues : List String) (st : DetState) (codeValue : String) : DetState :=
  if policyValues.any (fun policyValue => compareValues codeValue policyValue compareOp valueType) then st
  else
    let key := mismatchKey label codeValue policyValues
    if st.seen.contains key then st
    else ⟨st.seen ++ [key], st.results ++ [mismatchFinding severity ruleName file label codeValue policyValues]⟩

/-- The `for (const comparison of comparisons)` loop body of
`runDeterministicComparisons`.  `extract` abstracts
`extractMatches(text, buildRegex(pattern, flags))`. -/
def detCompStep (extract : String → String → List String)
    (diffText policyText sevLogic ruleName file : String)
    (st : DetState) (c : Comparison) : DetState :=
  if c.codePattern = "" ∨ c.policyPattern = "" then st else
  let codeValues := extract c.codePattern diffText
  if codeValues = [] then st else
  let policyValues := extract c.policyPattern policyText
  let compare := resolvedCompare c
  let valueType := resolvedValueType c
  let severity := normalizeSeverity c.severity sevLogic
  let label := resolvedLabel c ruleName
  if policyValues = [] then
    let key := missingKey label codeValues
    if st.seen.contains key then st
    else ⟨st.seen ++ [key], st.results ++ [missingFinding severity ruleName file label codeValues]⟩
  else
    codeValues.foldl (detValueStep severity ruleName file label compare valueType policyValues) st

/-- Source `runDeterministicComparisons`.  `sevLogic` is the configured
`config.output.severity.logicDrift` fallback. -/
def runDeterministicComparisons (extract : String → String → List String)
    (comparisons : List Comparison) (diffText policyText sevLogic ruleName file : String) : List Finding :=
  (comparisons.foldl (detCompStep extract diffText policyText sevLogic ruleName file) ⟨[], []⟩).results

/-! ## Pattern safety validation (source: `validateRegexSafety`).
A compiled `RegExp` is modelled by its two relevant flags and its mutable
`lastIndex`; a `.test` call is an oracle returning the outcome (`none`
models a thrown error, whose message never contains the marker text and
is therefore swallowed by the catch), the updated `lastIndex`, and the
wall-clock milliseconds the probe took. -/

/-- Source `MAX_REGEX_TIME_MS`. -/
def MAX_REGEX_TIME_MS : Nat := 100

/-- A compiled `RegExp` with its mutable match-position state. -/
structure JSRegexp where
  global : Bool
  sticky : Bool
  source : String
  lastIndex : Nat
deriving Repr, DecidableEq

/-- Outcome of one `regex.test(testCase)` probe. -/
structure TestOutcome where
  result : Option Bool
  newLastIndex : Nat
  elapsedMs : Nat
deriving Repr

/-- The probe strings of `validateRegexSafety`. -/
def regexTestCases : List String :=
  [String.mk (List.replicate 50 'a'),
   "aaaaaaaaaaaaaaaaaX",
   String.mk (List.replicate 30 'a') ++ "b"]

/-- One iteration of the probe loop of `validateRegexSafety`. -/
def probeStep (testFn : JSRegexp → String → TestOutcome) (shouldReset : Bool)
    (acc : Except String JSRegexp) (testCase : String) : Except String JSRegexp :=
  match acc with
  | .error e => .error e
  | .ok r =>
    let r := if shouldReset then { r with lastIndex := 0 } else r
    let o := testFn r testCase
    let r := { r with lastIndex := o.newLastIndex }
    match o.result with
    | some _ =>
      if o.elapsedMs > MAX_REGEX_TIME_MS then
        .error ("Regex pattern is too complex (took " ++ toString o.elapsedMs ++
          "ms, max " ++ toString MAX_REGEX_TIME_MS ++ "ms). Potential ReDoS vulnerability detected.")
      else .ok r
    | none => .ok r

/-- Source `validateRegexSafety`. -/
def validateRegexSafety (testFn : JSRegexp → String → TestOutcome) (regex : JSRegexp) : Except String JSRegexp :=
  let shouldReset := regex.global || regex.sticky
  match regexTestCases.foldl (probeStep testFn shouldReset) (.ok regex) with
  | .error e => .error e
  | .ok r => .ok (if shouldReset then { r with lastIndex := 0 } else r)

/-! ## Extractors relevant to deduplication (source:
`extractJsFunctions`, `extractClassNames`).  The seven JS regexes are
abstracted as an input match list; the single class-name pattern
`/\bclass\s+([A-Za-z0-9_]+)/g` is implemented as a character scanner. -/

/-- One regex match inside `extractJsFunctions`: captured name, captured
parameter text, and match index. -/
structure JsMatch where
  name : String
  params : String
  index : Nat
deriving Repr, DecidableEq

/-- The names skipped by `extractJsFunctions` as false positives. -/
def jsSkipNames : List String :=
  ["if", "for", "while", "switch", "catch", "with", "function", "return",
   "new", "throw", "typeof", "void", "delete", "in", "of"]

/-- The match loop of `extractJsFunctions`: skip keyword names, then
dedupe on the key `name + ':' + match.index` (matches of all seven
patterns are processed in order with one shared `seen` set). -/
def jsKeptMatchesAux (seen : List String) : List JsMatch → List JsMatch
  | [] => []
  | m :: rest =>
    if jsSkipNames.contains m.name then jsKeptMatchesAux seen rest
    else
      let key := m.name ++ ":" ++ toString m.index
      if seen.contains key then jsKeptMatchesAux seen rest
      else m :: jsKeptMatchesAux (key :: seen) rest

/-- Source `extractJsFunctions`, over its pattern matches. -/
def extractJsFunctions (patternMatches : List JsMatch) (file content : String) : List Entity :=
  (jsKeptMatchesAux [] patternMatches).map
    (fun m => buildEntity "function" m.name m.params file content m.index)

/-- Word characters of `[A-Za-z0-9_]`, also the `\b` boundary class. -/
def isWordChar (c : Char) : Bool :=
  c.isAlphanum || c == '_'

/-- Scanner for `/\bclass\s+([A-Za-z0-9_]+)/g`: at a word boundary, the
literal `class` followed by at least one whitespace and at least one word
character yields a match, and scanning resumes after it (the regex
engine's `lastIndex`); otherwise scanning advances one character.
Structural recursion via fuel; the wrapper supplies sufficient fuel. -/
def classScanF : Nat → List Char → Nat → Bool → List (String × Nat)
  | 0, _, _, _ => []
  | fuel + 1, l, idx, prevWord =>
    match l with
    | [] => []
    | c :: rest =>
      if !prevWord ∧ c = 'c' ∧ ("lass").data.isPrefixOf rest then
        let afterKw := rest.drop 4
        let ws := afterKw.takeWhile isJsWs
        let afterWs := afterKw.dropWhile isJsWs
        let nameChars := afterWs.takeWhile isWordChar
        if ws ≠ [] ∧ nameChars ≠ [] then
          (String.mk nameChars, idx) ::
            classScanF fuel (afterWs.drop nameChars.length)
              (idx + 5 + ws.length + nameChars.length) true
        else classScanF fuel rest (idx + 1) (isWordChar c)
      else classScanF fuel rest (idx + 1) (isWordChar c)

/-- All matches of the class-name pattern in a content string. -/
def classMatches (content : String) : List (String × Nat) :=
  classScanF (content.data.length + 1) content.data 0 false

/-- Source `extractClassNames`: one entity per match, with no
deduplication. -/
def extractClassNames (content file : String) : List Entity :=
  (classMatches content).map (fun m => buildEntity "class" m.1 "" file content m.2)

/-! ## Lemmas and claim theorems. -/

theorem probeStep_flags (tf : JSRegexp → String → TestOutcome) (sr : Bool)
    (acc : Except String JSRegexp) (tc : String) (r1 : JSRegexp)
    (h : probeStep tf sr acc tc = .ok r1) :
    ∃ r0, acc = .ok r0 ∧ r1.global = r0.global ∧ r1.sticky = r0.sticky := by
  cases acc with
  | error e => simp [probeStep] at h
  | ok r0 =>
    refine ⟨r0, rfl, ?_⟩
    simp only [probeStep] at h
    repeat' split at h
    all_goals
      first
        | (have h' := Except.ok.inj h; subst h'; exact ⟨rfl, rfl⟩)
        | exact absurd h (by simp)

theorem probeFold_flags (tf : JSRegexp → String → TestOutcome) (sr : Bool) :
    ∀ (tcs : List String) (acc : Except String JSRegexp) (r : JSRegexp),
    tcs.foldl (probeStep tf sr) acc = .ok r →
    ∃ r0, acc = .ok r0 ∧ r.global = r0.global ∧ r.sticky = r0.sticky := by
  intro tcs
  induction tcs with
  | nil => intro acc r h; exact ⟨r, h, rfl, rfl⟩
  | cons tc tcs ih =>
    intro acc r h
    obtain ⟨r1, h1, hg1, hs1⟩ := ih (probeStep tf sr acc tc) r h
    obtain ⟨r0, h0, hg0, hs0⟩ := probeStep_flags tf sr acc tc r1 h1
    exact ⟨r0, h0, hg1.trans hg0, hs1.trans hs0⟩

/-- C9: `validateRegexSafety` resets the probed pattern's internal
match-position state after probing: every global-or-sticky regex it
accepts is returned with `lastIndex = 0`. -/
theorem validateRegexSafety_resets_lastIndex
    (testFn : JSRegexp → String → TestOutcome) (regex r' : JSRegexp)
    (hok : validateRegexSafety testFn regex = .ok r')
    (hflags : (r'.global || r'.sticky) = true) :
    r'.lastIndex = 0 := by
  simp only [validateRegexSafety] at hok
  rcases hfold : regexTestCases.foldl (probeStep testFn (regex.global || regex.sticky)) (.ok regex) with e | r
  · rw [hfold] at hok; exact absurd hok (by simp)
  · rw [hfold] at hok
    obtain ⟨r0, h0, hg, hs⟩ := probeFold_flags testFn (regex.global || regex.sticky) regexTestCases (.ok regex) r hfold
    have hr0 : regex = r0 := Except.ok.inj h0
    rw [← hr0] at hg hs
    have hok' : (if (regex.global || regex.sticky) = true then { r with lastIndex := 0 } else r) = r' := by
      simpa using hok
    by_cases hsr : (regex.global || regex.sticky) = true
    · rw [if_pos hsr] at hok'; rw [← hok']
    · rw [if_neg hsr] at hok'
      subst hok'
      rw [hg, hs] at hflags
      exact absurd hflags hsr

/-- Witness for C9 at a concrete global regex and probe oracle. -/
theorem validateRegexSafety_resets_lastIndex_witness :
    (⟨true, false, "a+", 0⟩ : JSRegexp).lastIndex = 0 :=
  validateRegexSafety_resets_lastIndex
    (fun r _ => ⟨some true, r.lastIndex + 3, 5⟩) ⟨true, false, "a+", 7⟩
    ⟨true, false, "a+", 0⟩ rfl rfl

theorem starts_plus_of_pplus (l : String) (h : strStarts l "+++" = true) :
    strStarts l "+" = true := by
  rw [strStarts, show ("+++" : String).data = ['+', '+', '+'] from rfl] at h
  rw [strStarts, show ("+" : String).data = ['+'] from rfl]
  revert h
  generalize l.data = xs
  intro h
  cases xs with
  | nil => exact absurd h (by decide)
  | cons c cs =>
    simp only [List.isPrefixOf_cons₂, List.isPrefixOf_nil_left, Bool.and_true,
      Bool.and_eq_true] at h ⊢
    exact h.1

theorem starts_minus_of_mmm (l : String) (h : strStarts l "---" = true) :
    strStarts l "-" = true := by
  rw [strStarts, show ("---" : String).data = ['-', '-', '-'] from rfl] at h
  rw [strStarts, show ("-" : String).data = ['-'] from rfl]
  revert h
  generalize l.data = xs
  intro h
  cases xs with
  | nil => exact absurd h (by decide)
  | cons c cs =>
    simp only [List.isPrefixOf_cons₂, List.isPrefixOf_nil_left, Bool.and_true,
      Bool.and_eq_true] at h ⊢
    exact h.1

theorem starts_plus_not_minus (l : String) (h : strStarts l "+" = true) :
    strStarts l "-" = false := by
  rw [strStarts, show ("+" : String).data = ['+'] from rfl] at h
  rw [strStarts, show ("-" : String).data = ['-'] from rfl]
  revert h
  generalize l.data = xs
  intro h
  cases xs with
  | nil => exact absurd h (by decide)
  | cons c cs =>
    simp only [List.isPrefixOf_cons₂, List.isPrefixOf_nil_left, Bool.and_true, beq_iff_eq] at h ⊢
    rw [← h]
    decide

theorem starts_minus_not_plus (l : String) (h : strStarts l "-" = true) :
    strStarts l "+" = false := by
  rw [strStarts, show ("-" : String).data = ['-'] from rfl] at h
  rw [strStarts, show ("+" : String).data = ['+'] from rfl]
  revert h
  generalize l.data = xs
  intro h
  cases xs with
  | nil => exact absurd h (by decide)
  | cons c cs =>
    simp only [List.isPrefixOf_cons₂, List.isPrefixOf_nil_left, Bool.and_true, beq_iff_eq] at h ⊢
    rw [← h]
    decide

theorem removedTokens_cons (ek : String → List String) (l : String) (lines : List String) :
    removedTokens ek (l :: lines) =
      (if strStarts l "-" && !(strStarts l "---") then ek (l.drop 1) else []) ++ removedTokens ek lines := by
  simp [removedTokens]

theorem addedTokens_cons (ek : String → List String) (l : String) (lines : List String) :
    addedTokens ek (l :: lines) =
      (if strStarts l "+" && !(strStarts l "+++") then ek (l.drop 1) else []) ++ addedTokens ek lines := by
  simp [addedTokens]

theorem renameFold_noHunk (ek : String → List String) (al : List Matcher) :
    ∀ (lines : List String) (st : HunkState),
    (∀ l ∈ lines, strStarts l "@@" = false) →
    lines.foldl (renameStep ek al) st =
      ⟨st.removed ++ removedTokens ek lines, st.added ++ addedTokens ek lines, st.renames⟩ := by
  intro lines
  induction lines with
  | nil => intro st _; simp [removedTokens, addedTokens]
  | cons l lines ih =>
    intro st h
    have hat : strStarts l "@@" = false := h l (List.mem_cons_self l lines)
    have hrest : ∀ l' ∈ lines, strStarts l' "@@" = false :=
      fun l' hl' => h l' (List.mem_cons_of_mem l hl')
    rw [List.foldl_cons, ih _ hrest, removedTokens_cons, addedTokens_cons]
    simp only [renameStep, hat, Bool.false_eq_true, if_false]
    by_cases h1 : (strStarts l "+++" || strStarts l "---") = true
    · rw [if_pos h1]
      rcases Bool.or_eq_true_iff.mp h1 with h2 | h2
      · have hplus : strStarts l "+" = true := starts_plus_of_pplus l h2
        have hminus : strStarts l "-" = false := starts_plus_not_minus l hplus
        simp [h2, hminus]
      · have hminus : strStarts l "-" = true := starts_minus_of_mmm l h2
        have hplus : strStarts l "+" = false := starts_minus_not_plus l hminus
        simp [h2, hplus]
    · rw [if_neg h1]
      have h1' := Bool.or_eq_false_iff.mp (Bool.not_eq_true _ |>.mp h1)
      by_cases h2 : strStarts l "+" = true
      · have hminus : strStarts l "-" = false := starts_plus_not_minus l h2
        simp [h2, hminus, h1'.1]
      · rw [if_neg h2]
        by_cases h3 : strStarts l "-" = true
        · simp [h3, h1'.2, Bool.not_eq_true _ |>.mp h2]
        · simp [Bool.not_eq_true _ |>.mp h2, Bool.not_eq_true _ |>.mp h3]

theorem uniqueKeys_ne_nil_of_eq_cons {rem : List String} {o : String} {os : List String}
    (h : uniqueKeys rem = o :: os) : rem ≠ [] := by
  intro hnil
  rw [hnil] at h
  exact absurd h (by simp [uniqueKeys, uniqueKeysAux])

theorem hunkCandidate_eq_singleton_iff (al : List Matcher) (rem add : List String) (o n : String) :
    hunkCandidate al rem add = [⟨o, n⟩] ↔
      (uniqueKeys rem = [o] ∧ uniqueKeys add = [n] ∧ o ≠ n ∧
        (matchesAllowlist o al || matchesAllowlist n al) = true) := by
  constructor
  · intro h
    unfold hunkCandidate at h
    split at h
    · exact absurd h (by simp)
    · split at h
      · split at h
        · rename_i oldKey newKey heq1 heq2 hcond
          obtain ⟨h1, h2⟩ := List.cons.inj h
          obtain ⟨ho, hn⟩ := Rename.mk.inj h1
          subst ho; subst hn
          exact ⟨heq1, heq2, hcond.1, hcond.2⟩
        · exact absurd h (by simp)
      · exact absurd h (by simp)
  · rintro ⟨h1, h2, h3, h4⟩
    have hrem : rem ≠ [] := uniqueKeys_ne_nil_of_eq_cons h1
    unfold hunkCandidate
    rw [if_neg (by intro hc; exact hrem hc.1)]
    rw [show uniqueKeys rem = [o] from h1, show uniqueKeys add = [n] from h2]
    show (if o ≠ n ∧ (matchesAllowlist o al || matchesAllowlist n al) = true
      then [Rename.mk o n] else []) = [Rename.mk o n]
    rw [if_pos ⟨h3, h4⟩]

theorem findPayloadKeyRenames_single_hunk (ek : String → List String) (al : List Matcher)
    (lines : List String) (hno : ∀ l ∈ lines, strStarts l "@@" = false) :
    findPayloadKeyRenames ek lines al =
      hunkCandidate al (removedTokens ek lines) (addedTokens ek lines) := by
  unfold findPayloadKeyRenames
  rw [renameFold_noHunk ek al lines ⟨[], [], []⟩ hno]
  simp

theorem renameFindings_sound (doc : DocKeyMap) (sev file : String) :
    ∀ (rs : List Rename) (f : Finding), f ∈ renameFindings doc sev file rs →
    ∃ r ∈ rs, mapHas doc r.oldKey = true ∧ mapHas doc r.newKey = false ∧
      f = mkRenameFinding doc sev file r := by
  intro rs
  induction rs with
  | nil => intro f hf; simp [renameFindings] at hf
  | cons r rs ih =>
    intro f hf
    unfold renameFindings at hf
    split at hf
    · obtain ⟨r', hr', hp⟩ := ih f hf
      exact ⟨r', List.mem_cons_of_mem r hr', hp⟩
    · split at hf
      · obtain ⟨r', hr', hp⟩ := ih f hf
        exact ⟨r', List.mem_cons_of_mem r hr', hp⟩
      · rcases List.mem_cons.mp hf with heq | hmem
        · next hold hnew =>
          exact ⟨r, List.mem_cons_self r rs,
            Bool.not_eq_false _ |>.mp (by simpa using hold), Bool.not_eq_true _ |>.mp hnew, heq⟩
        · obtain ⟨r', hr', hp⟩ := ih f hmem
          exact ⟨r', List.mem_cons_of_mem r hr', hp⟩

theorem renameFindings_complete (doc : DocKeyMap) (sev file : String) :
    ∀ (rs : List Rename) (r : Rename), r ∈ rs → mapHas doc r.oldKey = true →
    mapHas doc r.newKey = false →
    mkRenameFinding doc sev file r ∈ renameFindings doc sev file rs := by
  intro rs
  induction rs with
  | nil => intro r hr _ _; simp at hr
  | cons r0 rs ih =>
    intro r hr hold hnew
    rcases List.mem_cons.mp hr with heq | hmem
    · subst heq
      unfold renameFindings
      rw [if_neg (by simp [hold]), if_neg (by simp [hnew])]
      exact List.mem_cons_self _ _
    · unfold renameFindings
      split
      · exact ih r hmem hold hnew
      · split
        · exact ih r hmem hold hnew
        · exact List.mem_cons_of_mem _ (ih r hmem hold hnew)

theorem comparePayloadKeyRenames_single_file (ek : String → List String) (file : String)
    (lines : List String) (doc : DocKeyMap) (al : List Matcher) (sev : String) :
    comparePayloadKeyRenames ek [file] (fun _ => some lines) doc al sev =
      renameFindings doc sev file (findPayloadKeyRenames ek lines al) := by
  simp [comparePayloadKeyRenames]

theorem matchesAllowlist_of_ne_nil (k : String) (al : List Matcher) (hal : al ≠ []) :
    matchesAllowlist k al = al.any (fun m => m k) := by
  rw [matchesAllowlist, if_neg]
  simp [List.isEmpty_iff, hal]

/-- C2: within one diff hunk (no hunk-header lines), `findPayloadKeyRenames`
declares a rename candidate exactly when the distinct removed-line and
added-line token sets are singletons that differ and at least one of the
two keys matches the configured (non-empty) allowlist; and
`comparePayloadKeyRenames` turns a candidate into a `payload-key-rename`
Finding exactly when the old key occurs in the documentation payload-key
index and the new key does not. -/
theorem findPayloadKeyRenames_characterization
    (ek : String → List String) (al : List Matcher) (hal : al ≠ [])
    (lines : List String) (hno : ∀ l ∈ lines, strStarts l "@@" = false)
    (doc : DocKeyMap) (sev file : String) :
    (∀ o n, findPayloadKeyRenames ek lines al = [⟨o, n⟩] ↔
      (uniqueKeys (removedTokens ek lines) = [o] ∧ uniqueKeys (addedTokens ek lines) = [n] ∧
        o ≠ n ∧ (al.any (fun m => m o) || al.any (fun m => m n)) = true))
    ∧ (∀ f ∈ comparePayloadKeyRenames ek [file] (fun _ => some lines) doc al sev,
        ∃ r ∈ findPayloadKeyRenames ek lines al,
          mapHas doc r.oldKey = true ∧ mapHas doc r.newKey = false ∧
            f = mkRenameFinding doc sev file r)
    ∧ (∀ r ∈ findPayloadKeyRenames ek lines al,
        mapHas doc r.oldKey = true → mapHas doc r.newKey = false →
        mkRenameFinding doc sev file r ∈
          comparePayloadKeyRenames ek [file] (fun _ => some lines) doc al sev) := by
  refine ⟨?_, ?_, ?_⟩
  · intro o n
    rw [findPayloadKeyRenames_single_hunk ek al lines hno,
      hunkCandidate_eq_singleton_iff, matchesAllowlist_of_ne_nil o al hal,
      matchesAllowlist_of_ne_nil n al hal]
  · intro f hf
    rw [comparePayloadKeyRenames_single_file] at hf
    exact renameFindings_sound doc sev file _ f hf
  · intro r hr hold hnew
    rw [comparePayloadKeyRenames_single_file]
    exact renameFindings_complete doc sev file _ r hr hold hnew

/-- Witness for C2: removing `user_id` and adding `uid` in one hunk, with
`user_id` on the allowlist and documented, yields exactly the candidate
and its `payload-key-rename` Finding. -/
theorem findPayloadKeyRenames_characterization_witness :
    findPayloadKeyRenames (fun l => [l]) ["-user_id", "+uid"] [fun k => k = "user_id"] =
      [⟨"user_id", "uid"⟩] ∧
    mkRenameFinding [("user_id", ["api.md"])] "warning" "api.js" ⟨"user_id", "uid"⟩ ∈
      comparePayloadKeyRenames (fun l => [l]) ["api.js"] (fun _ => some ["-user_id", "+uid"])
        [("user_id", ["api.md"])] [fun k => k = "user_id"] "warning" := by
  have h := findPayloadKeyRenames_characterization (fun l => [l]) [fun k => k = "user_id"]
    (by simp) ["-user_id", "+uid"] (by decide) [("user_id", ["api.md"])] "warning" "api.js"
  have hr : findPayloadKeyRenames (fun l => [l]) ["-user_id", "+uid"] [fun k => k = "user_id"] =
      [⟨"user_id", "uid"⟩] :=
    (h.1 "user_id" "uid").mpr (by decide)
  refine ⟨hr, h.2.2 ⟨"user_id", "uid"⟩ ?_ (by decide) (by decide)⟩
  rw [hr]
  exact List.mem_cons_self _ _

/-- C10: an empty compiled payload-keys allowlist admits every key, so a
rename candidate is declared for any hunk whose distinct removed and
added token sets are differing singletons, with no allowlist membership
required of either key. -/
theorem matchesAllowlist_empty_allows_all :
    (∀ (mk : String → Matcher) (k : String), matchesAllowlist k (compileAllowlist [] mk) = true)
    ∧ (∀ (ek : String → List String) (lines : List String) (o n : String) (mk : String → Matcher),
        (∀ l ∈ lines, strStarts l "@@" = false) →
        uniqueKeys (removedTokens ek lines) = [o] →
        uniqueKeys (addedTokens ek lines) = [n] → o ≠ n →
        findPayloadKeyRenames ek lines (compileAllowlist [] mk) = [⟨o, n⟩]) := by
  constructor
  · intro mk k; rfl
  · intro ek lines o n mk hno h1 h2 hon
    rw [findPayloadKeyRenames_single_hunk ek _ lines hno]
    exact (hunkCandidate_eq_singleton_iff _ _ _ o n).mpr ⟨h1, h2, hon, rfl⟩

/-- Witness for C10: with no allowlist configured, the same hunk declares
its rename candidate even though neither key matches anything. -/
theorem matchesAllowlist_empty_allows_all_witness :
    findPayloadKeyRenames (fun l => [l]) ["-user_id", "+uid"]
      (compileAllowlist [] (fun _ => fun _ => false)) = [⟨"user_id", "uid"⟩] :=
  matchesAllowlist_empty_allows_all.2 (fun l => [l]) ["-user_id", "+uid"] "user_id" "uid"
    (fun _ => fun _ => false) (by decide) (by decide) (by decide) (by decide)

theorem mkVariants_mem :
    ∀ (ds : List DocFn) (vs : List Variant), mkVariants ds = some vs →
    ∀ d ∈ ds, ∃ v, mkVariant d = some v ∧ v ∈ vs := by
  intro ds
  induction ds with
  | nil => intro vs _ d hd; exact absurd hd (List.not_mem_nil d)
  | cons d0 ds ih =>
    intro vs hvs d hd
    rcases h0 : mkVariant d0 with _ | v0
    · simp only [mkVariants, h0] at hvs
      exact absurd hvs (by simp)
    · rcases h1 : mkVariants ds with _ | vs0
      · simp only [mkVariants, h0, h1] at hvs
        exact absurd hvs (by simp)
      · simp only [mkVariants, h0, h1] at hvs
        have hvs' : v0 :: vs0 = vs := Option.some.inj hvs
        rcases List.mem_cons.mp hd with rfl | hd'
        · exact ⟨v0, h0, hvs' ▸ List.mem_cons_self v0 vs0⟩
        · obtain ⟨v, hv, hvmem⟩ := ih vs0 h1 d hd'
          exact ⟨v, hv, hvs' ▸ List.mem_cons_of_mem v0 hvmem⟩

theorem docByName_mem (docFns : List DocFn) (name : String) (dvs : List Variant)
    (hdv : docByName docFns name = some dvs) (d : DocFn) (hd : d ∈ docFns)
    (hname : d.name = name) (dps : List String)
    (hdp : normalizeParamList d.params = some dps) :
    Variant.mk dps d.file d.signature ∈ dvs := by
  have hfd : d ∈ docFns.filter (fun d => d.name = name) :=
    List.mem_filter.mpr ⟨hd, by simp [hname]⟩
  obtain ⟨v, hv, hvmem⟩ := mkVariants_mem _ dvs hdv d hfd
  have hveq : Variant.mk dps d.file d.signature = v := by
    simp only [mkVariant, hdp, Option.map_some'] at hv
    exact Option.some.inj hv
  exact hveq ▸ hvmem

theorem compareFnStep_exact_results (sev : String) (docFns : List DocFn) (st : CFState) (fn : Entity)
    (codeParams : List String)
    (hcp : normalizeParamList (extractSignatureParams fn.signature) = some codeParams)
    (h : ∃ d ∈ docFns, d.name = fn.name ∧ ∃ dps, normalizeParamList d.params = some dps ∧
      paramKey dps = paramKey codeParams) :
    ∀ st', compareFnStep sev docFns st fn = some st' → st'.results = st.results := by
  intro st' hstep
  obtain ⟨d, hd, hname, dps, hdp, hkey⟩ := h
  rcases hdv : docByName docFns fn.name with _ | dvs
  · simp only [compareFnStep, hcp, hdv] at hstep
    exact absurd hstep (by simp)
  · have hmem : Variant.mk dps d.file d.signature ∈ dvs :=
      docByName_mem docFns fn.name dvs hdv d hd hname dps hdp
    have hne : dvs.isEmpty = false := by
      rcases dvs with _ | _
      · exact absurd hmem (List.not_mem_nil _)
      · rfl
    have hany : dvs.any (fun variant => paramKey variant.params = paramKey codeParams) = true :=
      List.any_eq_true.mpr ⟨_, hmem, by simpa using hkey⟩
    simp only [compareFnStep, hcp, hdv] at hstep
    by_cases hs : st.seen.contains (fn.name ++ ":" ++ paramKey codeParams) = true
    · rw [if_pos hs] at hstep
      rw [← Option.some.inj hstep]
    · rw [if_neg hs, if_neg (by simp [hne]), if_pos (by simpa using hany)] at hstep
      rw [← Option.some.inj hstep]

theorem compareFnFold_results (sev : String) (docFns : List DocFn) :
    ∀ (fns : List Entity) (st st' : CFState),
    (∀ fn ∈ fns, ∃ codeParams,
      normalizeParamList (extractSignatureParams fn.signature) = some codeParams ∧
      ∃ d ∈ docFns, d.name = fn.name ∧ ∃ dps, normalizeParamList d.params = some dps ∧
        paramKey dps = paramKey codeParams) →
    compareFnFold sev docFns st fns = some st' → st'.results = st.results := by
  intro fns
  induction fns with
  | nil =>
    intro st st' _ hfold
    rw [← Option.some.inj hfold]
  | cons fn fns ih =>
    intro st st' h hfold
    obtain ⟨cp, hcp, hex⟩ := h fn (List.mem_cons_self fn fns)
    rcases hstep : compareFnStep sev docFns st fn with _ | st1
    · simp only [compareFnFold, hstep] at hfold
      exact absurd hfold (by simp)
    · simp only [compareFnFold, hstep] at hfold
      rw [ih st1 st' (fun f hf => h f (List.mem_cons_of_mem fn hf)) hfold,
        compareFnStep_exact_results sev docFns st fn cp hcp hex st1 hstep]

/-- C5: a code function fact whose successfully normalized parameter list
exactly matches a documented variant of the same name contributes no
Finding: every state its loop iteration can return carries the result
list unchanged, and a run in which every function fact has such a variant
returns an empty Finding list whenever it returns at all. -/
theorem compareFunctions_exact_match_no_finding :
    (∀ (sev : String) (docFns : List DocFn) (st : CFState) (fn : Entity)
      (codeParams : List String),
      normalizeParamList (extractSignatureParams fn.signature) = some codeParams →
      (∃ d ∈ docFns, d.name = fn.name ∧ ∃ dps, normalizeParamList d.params = some dps ∧
        paramKey dps = paramKey codeParams) →
      ∀ st', compareFnStep sev docFns st fn = some st' → st'.results = st.results)
    ∧ (∀ (sev : String) (docFns : List DocFn) (entities : List Entity),
      (∀ fn ∈ entities, fn.type = "function" →
        ∃ codeParams, normalizeParamList (extractSignatureParams fn.signature) = some codeParams ∧
          ∃ d ∈ docFns, d.name = fn.name ∧ ∃ dps, normalizeParamList d.params = some dps ∧
            paramKey dps = paramKey codeParams) →
      ∀ res, compareFunctions entities docFns sev false = some res → res = []) := by
  constructor
  · exact compareFnStep_exact_results
  · intro sev docFns entities hall res hrun
    simp only [compareFunctions, Bool.false_eq_true, if_false] at hrun
    split at hrun
    · exact (Option.some.inj hrun).symm
    · split at hrun
      · exact absurd hrun (by simp)
      · split at hrun
        · exact absurd hrun (by simp)
        · rename_i st hfold
          rw [← Option.some.inj hrun]
          exact compareFnFold_results sev docFns _ ⟨[], [], []⟩ st (fun fn hfn => by
            have hmem := List.mem_filter.mp hfn
            exact hall fn hmem.1 (by simpa using hmem.2)) hfold

/-- Witness for C5: `createUser(email, password)` documented with the same
parameters produces no Finding. -/
theorem compareFunctions_exact_match_no_finding_witness :
    compareFnStep "warning" [⟨"createUser", "email, password", "createUser(email, password)", "d.md"⟩]
        ⟨[], [], []⟩ ⟨"function", "createUser", "createUser(email, password)", "u.js", 1⟩ =
      some ⟨["createUser"], ["createUser:email,password"], []⟩ ∧
    (⟨["createUser"], ["createUser:email,password"], []⟩ : CFState).results = [] ∧
    compareFunctions [⟨"function", "createUser", "createUser(email, password)", "u.js", 1⟩]
      [⟨"createUser", "email, password", "createUser(email, password)", "d.md"⟩] "warning" false =
      some [] ∧
    ([] : List Finding) = [] := by
  refine ⟨by decide, ?_, by decide, ?_⟩
  · exact compareFunctions_exact_match_no_finding.1 "warning"
      [⟨"createUser", "email, password", "createUser(email, password)", "d.md"⟩] ⟨[], [], []⟩
      ⟨"function", "createUser", "createUser(email, password)", "u.js", 1⟩
      ["email", "password"] (by decide)
      ⟨⟨"createUser", "email, password", "createUser(email, password)", "d.md"⟩, by decide, by decide,
        ["email", "password"], by decide, by decide⟩
      ⟨["createUser"], ["createUser:email,password"], []⟩ (by decide)
  · exact compareFunctions_exact_match_no_finding.2 "warning"
      [⟨"createUser", "email, password", "createUser(email, password)", "d.md"⟩]
      [⟨"function", "createUser", "createUser(email, password)", "u.js", 1⟩]
      (fun fn hfn _ => by
        rcases List.mem_singleton.mp hfn with rfl
        exact ⟨["email", "password"], by decide,
          ⟨"createUser", "email, password", "createUser(email, password)", "d.md"⟩, by decide,
          by decide, ["email", "password"], by decide, by decide⟩)
      [] (by decide)

theorem foldBest_cons (cp : List String) (acc : Variant × Int) (v : Variant) (vs : List Variant) :
    foldBest cp acc (v :: vs) =
      foldBest cp (if acc.2 < score cp v.params then (v, score cp v.params) else acc) vs := by
  simp [foldBest]

theorem foldBest_no_update (cp : List String) :
    ∀ (vs : List Variant) (acc : Variant × Int),
    (∀ v ∈ vs, score cp v.params ≤ acc.2) → foldBest cp acc vs = acc := by
  intro vs
  induction vs with
  | nil => intro acc _; rfl
  | cons v vs ih =>
    intro acc h
    rw [foldBest_cons, if_neg (not_lt.mpr (h v (List.mem_cons_self v vs)))]
    exact ih acc (fun u hu => h u (List.mem_cons_of_mem v hu))

theorem foldBest_argmax (cp : List String) :
    ∀ (vs : List Variant) (acc : Variant × Int),
    (∃ v ∈ vs, acc.2 < score cp v.params) →
    ∃ l r, vs = l ++ (foldBest cp acc vs).1 :: r ∧
      (∀ u ∈ l, score cp u.params < score cp (foldBest cp acc vs).1.params) ∧
      (∀ u ∈ vs, score cp u.params ≤ score cp (foldBest cp acc vs).1.params) ∧
      acc.2 < score cp (foldBest cp acc vs).1.params := by
  intro vs
  induction vs with
  | nil => rintro acc ⟨v, hv, _⟩; exact absurd hv (List.not_mem_nil v)
  | cons v vs ih =>
    intro acc hex
    by_cases hv : acc.2 < score cp v.params
    · rw [foldBest_cons, if_pos hv]
      by_cases hrest : ∃ u ∈ vs, score cp v.params < score cp u.params
      · obtain ⟨l, r, heq, hl, hall, hacc⟩ := ih (v, score cp v.params) hrest
        refine ⟨v :: l, r, by rw [List.cons_append, ← heq], ?_, ?_, ?_⟩
        · intro u hu
          rcases List.mem_cons.mp hu with rfl | hu'
          · exact hacc
          · exact hl u hu'
        · intro u hu
          rcases List.mem_cons.mp hu with rfl | hu'
          · exact le_of_lt hacc
          · exact hall u hu'
        · exact hv.trans hacc
      · push_neg at hrest
        rw [foldBest_no_update cp vs (v, score cp v.params) hrest]
        refine ⟨[], vs, rfl, fun u hu => absurd hu (List.not_mem_nil u), ?_, hv⟩
        intro u hu
        rcases List.mem_cons.mp hu with rfl | hu'
        · exact le_refl _
        · exact hrest u hu'
    · rw [foldBest_cons, if_neg hv]
      have hex' : ∃ u ∈ vs, acc.2 < score cp u.params := by
        obtain ⟨u, hu, hlt⟩ := hex
        rcases List.mem_cons.mp hu with rfl | hu'
        · exact absurd hlt hv
        · exact ⟨u, hu', hlt⟩
      obtain ⟨l, r, heq, hl, hall, hacc⟩ := ih acc hex'
      refine ⟨v :: l, r, by rw [List.cons_append, ← heq], ?_, ?_, hacc⟩
      · intro u hu
        rcases List.mem_cons.mp hu with rfl | hu'
        · exact lt_of_le_of_lt (not_lt.mp hv) hacc
        · exact hl u hu'
      · intro u hu
        rcases List.mem_cons.mp hu with rfl | hu'
        · exact le_of_lt (lt_of_le_of_lt (not_lt.mp hv) hacc)
        · exact hall u hu'

/-- C1 (amended): when some documented variant shares the code fact's
name but none matches its successfully normalized parameter list exactly,
`chooseBestParamMatch` returns the first highest-scoring variant (score
`2×|intersection| − (|code-only| + |doc-only|)`) whenever some variant
scores at least `0`; when every variant scores below `0` it returns the
first-listed variant regardless of score, because `bestScore` starts at
`-1`.  The Finding type emitted by the no-exact-match branch of
`compareFunctions` is `function-missing-params` / `function-extra-params`
/ `function-signature-mismatch` according to the difference sets of the
variant so chosen. -/
theorem chooseBestParamMatch_selection_and_classification
    (sev : String) (docFns : List DocFn) (st : CFState) (fn : Entity)
    (codeParams : List String)
    (hcp : normalizeParamList (extractSignatureParams fn.signature) = some codeParams)
    (dvs : List Variant) (hdv : docByName docFns fn.name = some dvs) (hne : dvs ≠ [])
    (hseen : st.seen.contains (fn.name ++ ":" ++ paramKey codeParams) = false)
    (hnoexact : ∀ v ∈ dvs, paramKey v.params ≠ paramKey codeParams) :
    ((∃ v ∈ dvs, 0 ≤ score codeParams v.params) →
      (∀ u ∈ dvs, score codeParams u.params ≤
        score codeParams (chooseBestParamMatch codeParams dvs).params) ∧
      ∃ l r, dvs = l ++ (chooseBestParamMatch codeParams dvs) :: r ∧
        ∀ u ∈ l, score codeParams u.params <
          score codeParams (chooseBestParamMatch codeParams dvs).params)
    ∧ ((∀ v ∈ dvs, score codeParams v.params < 0) →
      dvs.head? = some (chooseBestParamMatch codeParams dvs))
    ∧ (∃ f, compareFnStep sev docFns st fn =
        some ⟨addSet st.codeNames fn.name, addSet st.seen (fn.name ++ ":" ++ paramKey codeParams),
          st.results ++ [f]⟩ ∧
        f.type =
          (let best := chooseBestParamMatch codeParams dvs
           let missing := difference codeParams best.params
           let extra := difference best.params codeParams
           if missing.length > 0 ∧ extra.length = 0 then "function-missing-params"
           else if extra.length > 0 ∧ missing.length = 0 then "function-extra-params"
           else "function-signature-mismatch")) := by
  rcases hvs : dvs with _ | ⟨v0, rest⟩
  · exact absurd hvs hne
  rw [← hvs]
  refine ⟨?_, ?_, ?_⟩
  · intro hex
    have hex' : ∃ v ∈ dvs, (-1 : Int) < score codeParams v.params := by
      obtain ⟨v, hv, hs⟩ := hex
      exact ⟨v, hv, lt_of_lt_of_le (by decide) hs⟩
    have hch : chooseBestParamMatch codeParams dvs =
        (foldBest codeParams (v0, -1) dvs).1 := by
      rw [hvs]; rfl
    obtain ⟨l, r, heq, hl, hall, _⟩ :=
      foldBest_argmax codeParams dvs (v0, -1) hex'
    rw [hch]
    exact ⟨hall, l, r, heq, hl⟩
  · intro hneg
    have hch : chooseBestParamMatch codeParams dvs =
        (foldBest codeParams (v0, -1) dvs).1 := by
      rw [hvs]; rfl
    rw [hch, foldBest_no_update _ dvs (v0, -1) (fun v hv => by
      have := hneg v hv
      omega)]
    rw [hvs]; rfl
  · have hnoexact' : dvs.any
        (fun variant => paramKey variant.params = paramKey codeParams) = false := by
      refine List.any_eq_false.mpr ?_
      intro v hv
      simpa using hnoexact v hv
    have hnemp : dvs.isEmpty = false := by
      rw [hvs]; rfl
    simp only [compareFnStep, hcp, hdv]
    rw [if_neg (by rw [hseen]; decide), if_neg (by rw [hnemp]; decide),
      if_neg (by rw [hnoexact']; decide)]
    split
    · exact ⟨_, rfl, by simp_all⟩
    · split
      · exact ⟨_, rfl, by simp_all⟩
      · exact ⟨_, rfl, by simp_all⟩

/-- Counterexample to C1 as stated: with code parameters `[a]` and doc
variants `(x, y)` then `()`, every score is below `0`, so the first
variant `(x, y)` is chosen although `()` scores strictly higher; the
emitted Finding is `function-signature-mismatch`, while the
highest-scoring variant `()` would have classified as missing-only. -/
theorem chooseBestParamMatch_highest_score_cex :
    chooseBestParamMatch ["a"] [⟨["x", "y"], "d.md", "f(x, y)"⟩, ⟨[], "d.md", "f()"⟩] =
      ⟨["x", "y"], "d.md", "f(x, y)"⟩ ∧
    score ["a"] ["x", "y"] < score ["a"] ([] : List String) ∧
    (∀ v ∈ [(⟨["x", "y"], "d.md", "f(x, y)"⟩ : Variant), ⟨[], "d.md", "f()"⟩],
      paramKey v.params ≠ paramKey ["a"]) ∧
    (compareFnStep "warning" [⟨"f", "x, y", "f(x, y)", "d.md"⟩, ⟨"f", "", "f()", "d.md"⟩]
      ⟨[], [], []⟩ ⟨"function", "f", "f(a)", "c.js", 1⟩).map
        (fun st => st.results.map (fun f => f.type)) =
      some ["function-signature-mismatch"] ∧
    difference ["a"] ([] : List String) ≠ [] ∧
    difference ([] : List String) ["a"] = [] := by
  refine ⟨by decide, by decide, by decide, ?_, by decide, by decide⟩
  decide

/-- Witness for the amended C1, at a doc corpus whose only variant scores
below zero: the first-listed variant is chosen. -/
theorem chooseBestParamMatch_selection_witness :
    ([(⟨["x", "y"], "d.md", "g(x, y)"⟩ : Variant)]).head? =
      some (chooseBestParamMatch ["a"] [⟨["x", "y"], "d.md", "g(x, y)"⟩]) :=
  (chooseBestParamMatch_selection_and_classification "warning"
    [⟨"g", "x, y", "g(x, y)", "d.md"⟩] ⟨[], [], []⟩ ⟨"function", "g", "g(a)", "c.js", 1⟩
    ["a"] (by decide) [⟨["x", "y"], "d.md", "g(x, y)"⟩] (by decide) (by decide) (by decide)
    (by decide)).2.1 (by decide)

theorem string_mid_inj (a b v v' : String) (h : a ++ v ++ b = a ++ v' ++ b) : v = v' := by
  have hd := congrArg String.data h
  simp only [String.data_append, List.append_assoc] at hd
  exact congrArg String.mk (List.append_cancel_right (List.append_cancel_left hd))

theorem mismatchKey_inj (label : String) (pvs : List String) (v v' : String)
    (h : mismatchKey label v pvs = mismatchKey label v' pvs) : v = v' := by
  have hd := congrArg String.data h
  simp only [mismatchKey, String.data_append, List.append_assoc] at hd
  exact congrArg String.mk
    (List.append_cancel_right (List.append_cancel_left (List.append_cancel_left hd)))

theorem mismatchFinding_inj (sv rn file label : String) (pvs : List String) (v v' : String)
    (h : mismatchFinding sv rn file label v pvs = mismatchFinding sv rn file label v' pvs) :
    v = v' := by
  have hexp := congrArg Finding.explanation h
  simp only [mismatchFinding, String.data_append] at hexp
  have hd := congrArg String.data hexp
  simp only [String.data_append, List.append_assoc] at hd
  exact congrArg String.mk
    (List.append_cancel_right (List.append_cancel_left (List.append_cancel_left
      (List.append_cancel_left hd))))

theorem detValueStep_eq (sv rn file label op vt : String) (pvs : List String)
    (st : DetState) (v : String) :
    (pvs.any (fun p => compareValues v p op vt) = true ∧
      detValueStep sv rn file label op vt pvs st v = st) ∨
    (pvs.any (fun p => compareValues v p op vt) = false ∧
      st.seen.contains (mismatchKey label v pvs) = true ∧
      detValueStep sv rn file label op vt pvs st v = st) ∨
    (pvs.any (fun p => compareValues v p op vt) = false ∧
      st.seen.contains (mismatchKey label v pvs) = false ∧
      detValueStep sv rn file label op vt pvs st v =
        ⟨st.seen ++ [mismatchKey label v pvs],
          st.results ++ [mismatchFinding sv rn file label v pvs]⟩) := by
  by_cases h1 : pvs.any (fun p => compareValues v p op vt) = true
  · exact Or.inl ⟨h1, by unfold detValueStep; rw [if_pos h1]⟩
  · have h1' : pvs.any (fun p => compareValues v p op vt) = false := by
      exact Bool.not_eq_true _ |>.mp h1
    by_cases h2 : st.seen.contains (mismatchKey label v pvs) = true
    · exact Or.inr (Or.inl ⟨h1', h2, by unfold detValueStep; rw [if_neg h1, if_pos h2]⟩)
    · refine Or.inr (Or.inr ⟨h1', Bool.not_eq_true _ |>.mp h2, ?_⟩)
      unfold detValueStep
      rw [if_neg h1, if_neg h2]

theorem detValueFold_results_grow (sv rn file label op vt : String) (pvs : List String) :
    ∀ (cvs : List String) (st : DetState),
    st.results <+: (cvs.foldl (detValueStep sv rn file label op vt pvs) st).results := by
  intro cvs
  induction cvs with
  | nil => intro st; exact List.prefix_refl _
  | cons v cvs ih =>
    intro st
    rw [List.foldl_cons]
    refine List.IsPrefix.trans ?_ (ih (detValueStep sv rn file label op vt pvs st v))
    rcases detValueStep_eq sv rn file label op vt pvs st v with ⟨_, he⟩ | ⟨_, _, he⟩ | ⟨_, _, he⟩ <;>
      rw [he]
    exact ⟨[mismatchFinding sv rn file label v pvs], rfl⟩

theorem detValueStep_seen_mono (sv rn file label op vt : String) (pvs : List String)
    (st : DetState) (v : String) :
    st.seen <+: (detValueStep sv rn file label op vt pvs st v).seen := by
  rcases detValueStep_eq sv rn file label op vt pvs st v with ⟨_, he⟩ | ⟨_, _, he⟩ | ⟨_, _, he⟩ <;>
    rw [he]
  exact ⟨[mismatchKey label v pvs], rfl⟩

theorem detValueFold_results (sv rn file label op vt : String) (pvs : List String) :
    ∀ (cvs : List String) (st : DetState),
    (∀ w, st.seen.contains (mismatchKey label w pvs) = true →
      mismatchFinding sv rn file label w pvs ∈ st.results) →
    ((∀ w, (cvs.foldl (detValueStep sv rn file label op vt pvs) st).seen.contains
        (mismatchKey label w pvs) = true →
      mismatchFinding sv rn file label w pvs ∈
        (cvs.foldl (detValueStep sv rn file label op vt pvs) st).results)
    ∧ (∀ v ∈ cvs, pvs.any (fun p => compareValues v p op vt) = false →
        mismatchFinding sv rn file label v pvs ∈
          (cvs.foldl (detValueStep sv rn file label op vt pvs) st).results)
    ∧ (∀ f ∈ (cvs.foldl (detValueStep sv rn file label op vt pvs) st).results,
        f ∈ st.results ∨ ∃ v ∈ cvs, pvs.any (fun p => compareValues v p op vt) = false ∧
          f = mismatchFinding sv rn file label v pvs)) := by
  intro cvs
  induction cvs with
  | nil =>
    intro st hinv
    exact ⟨hinv, fun v hv => absurd hv (List.not_mem_nil v), fun f hf => Or.inl hf⟩
  | cons v cvs ih =>
    intro st hinv
    have hstep := detValueStep_eq sv rn file label op vt pvs st v
    have hinv' : ∀ w, (detValueStep sv rn file label op vt pvs st v).seen.contains
        (mismatchKey label w pvs) = true →
        mismatchFinding sv rn file label w pvs ∈
          (detValueStep sv rn file label op vt pvs st v).results := by
      rcases hstep with ⟨_, he⟩ | ⟨_, _, he⟩ | ⟨h1, h2, he⟩ <;> rw [he]
      · exact hinv
      · exact hinv
      · intro w hw
        simp only [List.contains, List.elem_eq_mem, List.mem_append, List.mem_singleton,
          decide_eq_true_eq] at hw
        rcases hw with hw | hw
        · exact List.mem_append_left _ (hinv w (by simpa [List.contains] using hw))
        · rw [mismatchKey_inj label pvs w v hw]
          exact List.mem_append_right _ (List.mem_singleton.mpr rfl)
    obtain ⟨iha, ihb, ihc⟩ := ih (detValueStep sv rn file label op vt pvs st v) hinv'
    rw [List.foldl_cons]
    refine ⟨iha, ?_, ?_⟩
    · intro u hu hfail
      rcases List.mem_cons.mp hu with rfl | hu'
      · have hmem : mismatchFinding sv rn file label u pvs ∈
            (detValueStep sv rn file label op vt pvs st u).results := by
          rcases hstep with ⟨h1, _⟩ | ⟨_, h2, he⟩ | ⟨_, _, he⟩
          · exact absurd h1 (by simp [hfail])
          · rw [he]; exact hinv u h2
          · rw [he]; exact List.mem_append_right _ (List.mem_singleton.mpr rfl)
        exact ((detValueFold_results_grow sv rn file label op vt pvs cvs _).sublist.subset) hmem
      · exact ihb u hu' hfail
    · intro f hf
      rcases ihc f hf with hf' | ⟨u, hu, hfail, hfeq⟩
      · rcases hstep with ⟨_, he⟩ | ⟨_, _, he⟩ | ⟨h1, _, he⟩
        · rw [he] at hf'; exact Or.inl hf'
        · rw [he] at hf'; exact Or.inl hf'
        · rw [he] at hf'
          rcases List.mem_append.mp hf' with hl | hr
          · exact Or.inl hl
          · exact Or.inr ⟨v, List.mem_cons_self v cvs, h1, List.mem_singleton.mp hr⟩
      · exact Or.inr ⟨u, List.mem_cons_of_mem v hu, hfail, hfeq⟩

theorem detCompStep_results_grow (extract : String → String → List String)
    (dt pt sevL rn file : String) (st : DetState) (c : Comparison) :
    st.results <+: (detCompStep extract dt pt sevL rn file st c).results := by
  simp only [detCompStep]
  split
  · exact List.prefix_refl _
  · split
    · exact List.prefix_refl _
    · split
      · split
        · exact List.prefix_refl _
        · exact ⟨_, rfl⟩
      · exact detValueFold_results_grow _ _ _ _ _ _ _ _ st

theorem detCompFold_results_grow (extract : String → String → List String)
    (dt pt sevL rn file : String) :
    ∀ (cs : List Comparison) (st : DetState),
    st.results <+: (cs.foldl (detCompStep extract dt pt sevL rn file) st).results := by
  intro cs
  induction cs with
  | nil => intro st; exact List.prefix_refl _
  | cons c cs ih =>
    intro st
    rw [List.foldl_cons]
    exact List.IsPrefix.trans (detCompStep_results_grow extract dt pt sevL rn file st c)
      (ih (detCompStep extract dt pt sevL rn file st c))

/-- C6 (amended): when a configured comparison has both patterns present,
extracts at least one code value, and extracts no policy values — and no
earlier comparison in the run already produced its dedup key — a
`policy-value-missing` Finding for it is emitted. -/
theorem policy_value_missing_emitted
    (extract : String → String → List String) (pre : List Comparison) (c : Comparison)
    (post : List Comparison) (diffText policyText sevLogic ruleName file : String)
    (hcp : c.codePattern ≠ "") (hpp : c.policyPattern ≠ "")
    (hcv : extract c.codePattern diffText ≠ [])
    (hpv : extract c.policyPattern policyText = [])
    (hkey : (pre.foldl (detCompStep extract diffText policyText sevLogic ruleName file)
        ⟨[], []⟩).seen.contains
      (missingKey (resolvedLabel c ruleName) (extract c.codePattern diffText)) = false) :
    missingFinding (normalizeSeverity c.severity sevLogic) ruleName file (resolvedLabel c ruleName)
        (extract c.codePattern diffText) ∈
      runDeterministicComparisons extract (pre ++ c :: post) diffText policyText sevLogic ruleName file := by
  unfold runDeterministicComparisons
  rw [List.foldl_append, List.foldl_cons]
  have hstep : detCompStep extract diffText policyText sevLogic ruleName file
      (pre.foldl (detCompStep extract diffText policyText sevLogic ruleName file) ⟨[], []⟩) c =
      ⟨(pre.foldl (detCompStep extract diffText policyText sevLogic ruleName file) ⟨[], []⟩).seen ++
          [missingKey (resolvedLabel c ruleName) (extract c.codePattern diffText)],
        (pre.foldl (detCompStep extract diffText policyText sevLogic ruleName file) ⟨[], []⟩).results ++
          [missingFinding (normalizeSeverity c.severity sevLogic) ruleName file
            (resolvedLabel c ruleName) (extract c.codePattern diffText)]⟩ := by
    simp only [detCompStep]
    rw [if_neg (not_or.mpr ⟨hcp, hpp⟩), if_neg hcv, if_pos hpv, if_neg (by rw [hkey]; decide)]
  rw [hstep]
  refine ((detCompFold_results_grow extract diffText policyText sevLogic ruleName file post
    _).sublist.subset) ?_
  exact List.mem_append_right _ (List.mem_singleton.mpr rfl)

/-- Counterexample to C6 as stated: a comparison whose code pattern
extracts nothing is skipped before its policy side is ever considered, so
no `policy-value-missing` Finding is emitted even though the policy text
yields no values. -/
theorem policy_value_missing_requires_code_values_cex :
    runDeterministicComparisons (fun _ _ => []) [⟨"a", "b", "equals", "", "", "n", ""⟩]
      "difftext" "policytext" "error" "rule1" "api.js" = [] ∧
    (fun _ _ => ([] : List String)) "b" "policytext" = [] := by
  exact ⟨rfl, rfl⟩

/-- Witness for the amended C6 at a concrete run with one comparison. -/
theorem policy_value_missing_emitted_witness :
    missingFinding (normalizeSeverity "" "error") "r1" "f.js"
        (resolvedLabel ⟨"CODE", "POL", "", "", "", "lim", ""⟩ "r1") ["7"] ∈
      runDeterministicComparisons (fun p _ => if p = "CODE" then ["7"] else [])
        [⟨"CODE", "POL", "", "", "", "lim", ""⟩] "d" "p" "error" "r1" "f.js" := by
  have h := policy_value_missing_emitted (fun p _ => if p = "CODE" then ["7"] else [])
    [] ⟨"CODE", "POL", "", "", "", "lim", ""⟩ [] "d" "p" "error" "r1" "f.js"
    (by decide) (by decide) (by decide) (by decide) (by decide)
  simpa using h

set_option maxRecDepth 40000 in
/-- C3: `compareValues` uses numeric semantics for every operator when
both values parse as (finite) numbers after separator stripping, and
case-insensitive string semantics otherwise, with `contains` checking
containment in either direction; and in a run of one configured
comparison with at least one policy value, a `policy-value-mismatch`
Finding for a code value is emitted iff that value fails the operator
against every policy value.  Concretely, code `"7"` against policy
`"30"` satisfies `lte` (no Finding) but fails `equals` (Finding). -/
theorem compareValues_semantics_and_mismatch :
    (∀ (c p : String) (a b : ℚ), parseNumber c = some a → parseNumber p = some b →
      (compareValues c p "equals" "auto" = (a == b) ∧
       compareValues c p "eq" "auto" = (a == b) ∧
       compareValues c p "not_equals" "auto" = !(a == b) ∧
       compareValues c p "ne" "auto" = !(a == b) ∧
       compareValues c p "gt" "auto" = decide (b < a) ∧
       compareValues c p "gte" "auto" = decide (b ≤ a) ∧
       compareValues c p "lt" "auto" = decide (a < b) ∧
       compareValues c p "lte" "auto" = decide (a ≤ b)))
    ∧ (∀ (c p : String), (parseNumber c = none ∨ parseNumber p = none) →
      (compareValues c p "equals" "auto" =
         (jsToLower (jsTrimStr c) == jsToLower (jsTrimStr p)) ∧
       compareValues c p "not_equals" "auto" =
         !(jsToLower (jsTrimStr c) == jsToLower (jsTrimStr p)) ∧
       compareValues c p "contains" "auto" =
         (strIncludes (jsToLower (jsTrimStr c)) (jsToLower (jsTrimStr p)) ||
          strIncludes (jsToLower (jsTrimStr p)) (jsToLower (jsTrimStr c)))))
    ∧ (∀ (extract : String → String → List String) (c : Comparison)
        (dt pt sevL rn file v : String),
        c.codePattern ≠ "" → c.policyPattern ≠ "" → extract c.policyPattern pt ≠ [] →
        ((v ∈ extract c.codePattern dt ∧
          ∀ p ∈ extract c.policyPattern pt,
            compareValues v p (resolvedCompare c) (resolvedValueType c) = false) ↔
         mismatchFinding (normalizeSeverity c.severity sevL) rn file (resolvedLabel c rn) v
             (extract c.policyPattern pt) ∈
           runDeterministicComparisons extract [c] dt pt sevL rn file))
    ∧ compareValues "7" "30" "lte" "auto" = true
    ∧ compareValues "7" "30" "equals" "auto" = false := by
  refine ⟨?_, ?_, ?_, by decide, by decide⟩
  · intro c p a b hc hp
    refine ⟨?_, ?_, ?_, ?_, ?_, ?_, ?_, ?_⟩ <;>
      simp [compareValues, normalizeValue, hc, hp]
  · intro c p h
    rcases hc : parseNumber c with _ | a <;> rcases hp : parseNumber p with _ | b
    · exact ⟨by simp [compareValues, normalizeValue, hc, hp],
        by simp [compareValues, normalizeValue, hc, hp],
        by simp [compareValues, normalizeValue, hc, hp]⟩
    · exact ⟨by simp [compareValues, normalizeValue, hc, hp],
        by simp [compareValues, normalizeValue, hc, hp],
        by simp [compareValues, normalizeValue, hc, hp]⟩
    · exact ⟨by simp [compareValues, normalizeValue, hc, hp],
        by simp [compareValues, normalizeValue, hc, hp],
        by simp [compareValues, normalizeValue, hc, hp]⟩
    · exfalso
      rcases h with h | h
      · exact absurd h (by simp [hc])
      · exact absurd h (by simp [hp])
  · intro extract c dt pt sevL rn file v hcp hpp hpv
    have hrun : runDeterministicComparisons extract [c] dt pt sevL rn file =
        (detCompStep extract dt pt sevL rn file ⟨[], []⟩ c).results := by
      unfold runDeterministicComparisons
      rw [List.foldl_cons, List.foldl_nil]
    by_cases hcv : extract c.codePattern dt = []
    · have hstep : detCompStep extract dt pt sevL rn file ⟨[], []⟩ c = ⟨[], []⟩ := by
        simp only [detCompStep]
        rw [if_neg (not_or.mpr ⟨hcp, hpp⟩), if_pos hcv]
      rw [hrun, hstep]
      constructor
      · rintro ⟨hv, _⟩
        rw [hcv] at hv
        exact absurd hv (List.not_mem_nil v)
      · intro hf
        exact absurd hf (List.not_mem_nil _)
    · have hstep : detCompStep extract dt pt sevL rn file ⟨[], []⟩ c =
          (extract c.codePattern dt).foldl
            (detValueStep (normalizeSeverity c.severity sevL) rn file (resolvedLabel c rn)
              (resolvedCompare c) (resolvedValueType c) (extract c.policyPattern pt)) ⟨[], []⟩ := by
        simp only [detCompStep]
        rw [if_neg (not_or.mpr ⟨hcp, hpp⟩), if_neg hcv, if_neg hpv]
      rw [hrun, hstep]
      obtain ⟨_, hb, hsound⟩ := detValueFold_results (normalizeSeverity c.severity sevL) rn file
        (resolvedLabel c rn) (resolvedCompare c) (resolvedValueType c) (extract c.policyPattern pt)
        (extract c.codePattern dt) ⟨[], []⟩ (by intro w hw; simp [List.contains] at hw)
      constructor
      · rintro ⟨hv, hfail⟩
        refine hb v hv (List.any_eq_false.mpr (fun p hp => by simp [hfail p hp]))
      · intro hf
        rcases hsound _ hf with hf' | ⟨u, hu, hfail, hfeq⟩
        · exact absurd hf' (List.not_mem_nil _)
        · have hv : v = u := mismatchFinding_inj _ _ _ _ _ _ _ hfeq
          subst hv
          refine ⟨hu, fun p hp => ?_⟩
          have := List.any_eq_false.mp hfail p hp
          simpa using this

set_option maxRecDepth 40000 in
/-- Witness for C3: `1,000` parses numerically and equals `1000`; a
configured `equals` comparison of code `7` against policy `30` emits the
mismatch Finding. -/
theorem compareValues_semantics_and_mismatch_witness :
    compareValues "1,000" "1000" "equals" "auto" = ((1000 : ℚ) == (1000 : ℚ)) ∧
    mismatchFinding (normalizeSeverity "" "error") "r1" "f.js"
        (resolvedLabel ⟨"CODE", "POL", "equals", "", "", "lim", ""⟩ "r1") "7" ["30"] ∈
      runDeterministicComparisons
        (fun p _ => if p = "CODE" then ["7"] else if p = "POL" then ["30"] else [])
        [⟨"CODE", "POL", "equals", "", "", "lim", ""⟩] "d" "p" "error" "r1" "f.js" := by
  constructor
  · exact (compareValues_semantics_and_mismatch.1 "1,000" "1000" 1000 1000
      (by decide) (by decide)).1
  · exact (compareValues_semantics_and_mismatch.2.2.1
      (fun p _ => if p = "CODE" then ["7"] else if p = "POL" then ["30"] else [])
      ⟨"CODE", "POL", "equals", "", "", "lim", ""⟩ "d" "p" "error" "r1" "f.js" "7"
      (by decide) (by decide) (by decide)).mp ⟨by decide, by decide⟩

theorem jsKept_nodup_aux :
    ∀ (pm : List JsMatch) (seen : List String),
    ((jsKeptMatchesAux seen pm).map (fun m => m.name ++ ":" ++ toString m.index)).Nodup ∧
    (∀ k ∈ (jsKeptMatchesAux seen pm).map (fun m => m.name ++ ":" ++ toString m.index), k ∉ seen) := by
  intro pm
  induction pm with
  | nil => intro seen; exact ⟨List.nodup_nil, fun k hk => absurd hk (List.not_mem_nil k)⟩
  | cons m pm ih =>
    intro seen
    simp only [jsKeptMatchesAux]
    split
    · exact ih seen
    · split
      · exact ih seen
      · next hseen =>
        obtain ⟨ihn, ihm⟩ := ih ((m.name ++ ":" ++ toString m.index) :: seen)
        simp only [List.map_cons]
        constructor
        · refine List.nodup_cons.mpr ⟨?_, ihn⟩
          intro hmem
          exact (ihm _ hmem) (List.mem_cons_self _ _)
        · intro k hk
          rcases List.mem_cons.mp hk with rfl | hk'
          · intro hks
            exact hseen (by simp [List.contains, hks])
          · exact fun hks => (ihm k hk') (List.mem_cons_of_mem _ hks)

/-- C8 (amended): `extractJsFunctions` (like the Python and Go function
extractors) deduplicates the facts it emits for one file by the pair
(name, match index) — the key `name + ':' + match.index` — not by
(name, kind); extractors without a `seen` set, such as
`extractClassNames`, do not deduplicate at all. -/
theorem extractJsFunctions_dedup_by_name_index :
    ∀ (pm : List JsMatch) (file content : String),
    extractJsFunctions pm file content =
      (jsKeptMatchesAux [] pm).map
        (fun m => buildEntity "function" m.name m.params file content m.index) ∧
    ((jsKeptMatchesAux [] pm).map (fun m => m.name ++ ":" ++ toString m.index)).Nodup :=
  fun pm _ _ => ⟨rfl, (jsKept_nodup_aux pm []).1⟩

/-- Counterexample to C8 as stated: `extractClassNames` performs no
deduplication, so a file declaring `class Foo` twice produces two facts
with the same name and the same kind. -/
theorem extractClassNames_duplicate_facts_cex :
    (extractClassNames "class Foo\nclass Foo" "f.js").map (fun e => (e.type, e.name)) =
      [("class", "Foo"), ("class", "Foo")] ∧
    (extractClassNames "class Foo\nclass Foo" "f.js").map (fun e => e.line) = [1, 2] := by
  exact ⟨rfl, rfl⟩

theorem keep_not_ws (c : Char) (h : isKeepChar c = true) : isJsWs c = false := by
  by_cases hw : isJsWs c = true
  · simp only [isJsWs, Bool.or_eq_true, beq_iff_eq] at hw
    rcases hw with ((((rfl | rfl) | rfl) | rfl) | rfl) | rfl <;> exact absurd h (by decide)
  · exact Bool.not_eq_true _ |>.mp hw

theorem keep_char_ne (c : Char) (h : isKeepChar c = true) (d : Char) (hd : isKeepChar d = false) :
    c ≠ d := by
  intro heq
  rw [heq, hd] at h
  exact Bool.false_ne_true h

theorem stripTokenL_keep (l : List Char) : ∀ c ∈ stripTokenL l, isKeepChar c = true :=
  fun _ hc => (List.mem_filter.mp hc).2

theorem normalizeParamName_keep (t s : String) (h : normalizeParamName t = some s) :
    ∀ c ∈ s.data, isKeepChar c = true := by
  intro c hc
  simp only [normalizeParamName, stripToken, stripTokenL] at h
  repeat' split at h
  all_goals
    first
      | exact Option.noConfusion h
      | (rw [← Option.some.inj h] at hc
         first
           | exact absurd hc (List.not_mem_nil c)
           | exact (List.mem_filter.mp hc).2)

theorem normalizeNames_mem :
    ∀ (ps ns : List String), normalizeNames ps = some ns →
    ∀ s ∈ ns, ∃ p, normalizeParamName p = some s := by
  intro ps
  induction ps with
  | nil =>
    intro ns h s hs
    rw [← Option.some.inj h] at hs
    exact absurd hs (List.not_mem_nil s)
  | cons p ps ih =>
    intro ns h s hs
    rcases hp : normalizeParamName p with _ | n
    · simp only [normalizeNames, hp] at h
      exact Option.noConfusion h
    · rcases hps : normalizeNames ps with _ | ns0
      · simp only [normalizeNames, hp, hps] at h
        exact Option.noConfusion h
      · simp only [normalizeNames, hp, hps] at h
        rw [← Option.some.inj h] at hs
        rcases List.mem_cons.mp hs with rfl | hs'
        · exact ⟨p, hp⟩
        · exact ih ns0 hps s hs'

theorem normalizeParamList_mem (P s : String) (L : List String)
    (hL : normalizeParamList P = some L) (hs : s ∈ L) :
    s ≠ "" ∧ ∀ c ∈ s.data, isKeepChar c = true := by
  unfold normalizeParamList at hL
  split at hL
  · rw [← Option.some.inj hL] at hs
    exact absurd hs (List.not_mem_nil s)
  · rcases hnn : normalizeNames (splitParams P) with _ | L0
    · rw [hnn] at hL
      exact absurd hL (by simp)
    · rw [hnn, Option.map_some'] at hL
      rw [← Option.some.inj hL] at hs
      have hfm := List.mem_filter.mp hs
      obtain ⟨p, hp⟩ := normalizeNames_mem _ L0 hnn s hfm.1
      exact ⟨by simpa using hfm.2, normalizeParamName_keep p s hp⟩

theorem dropWhile_all_false (p : Char → Bool) :
    ∀ (l : List Char), (∀ c ∈ l, p c = false) → l.dropWhile p = l := by
  intro l h
  cases l with
  | nil => rfl
  | cons c cs => simp [List.dropWhile_cons, h c (List.mem_cons_self c cs)]

theorem jsTrim_eq_self (l : List Char) (h : ∀ c ∈ l, isJsWs c = false) : jsTrim l = l := by
  unfold jsTrim
  rw [dropWhile_all_false isJsWs l h,
    dropWhile_all_false isJsWs l.reverse (fun c hc => h c (List.mem_reverse.mp hc)),
    List.reverse_reverse]

theorem dropEllipsis_eq_self (l : List Char) (h : ∀ c ∈ l, isKeepChar c = true) :
    dropEllipsis l = l := by
  unfold dropEllipsis
  split
  · exact absurd (h '.' (List.mem_cons_self _ _)) (by decide)
  · rfl

theorem takeWhile_all_true (p : Char → Bool) :
    ∀ (l : List Char), (∀ c ∈ l, p c = true) → l.takeWhile p = l := by
  intro l h
  induction l with
  | nil => rfl
  | cons c cs ih =>
    rw [List.takeWhile_cons, h c (List.mem_cons_self c cs)]
    simp [ih (fun d hd => h d (List.mem_cons_of_mem c hd))]

theorem wsSplitAux_all_nonws :
    ∀ (l cur : List Char), (∀ c ∈ l, isJsWs c = false) →
    wsSplitAux cur l = if cur ++ l = [] then [] else [cur ++ l] := by
  intro l
  induction l with
  | nil => intro cur _; simp [wsSplitAux]
  | cons c cs ih =>
    intro cur h
    unfold wsSplitAux
    rw [if_neg (by simp [h c (List.mem_cons_self c cs)])]
    rw [ih (cur ++ [c]) (fun d hd => h d (List.mem_cons_of_mem c hd))]
    rw [List.append_assoc]
    simp

theorem wsSplit_single (l : List Char) (hne : l ≠ []) (h : ∀ c ∈ l, isJsWs c = false) :
    wsSplit l = [l] := by
  unfold wsSplit
  rw [wsSplitAux_all_nonws l [] h]
  simp [hne]

theorem stripTokenL_eq_self (l : List Char) (h : ∀ c ∈ l, isKeepChar c = true) :
    stripTokenL l = l := by
  unfold stripTokenL dropDotWs
  rw [dropWhile_all_false _ l (fun c hc => by
    simp [beq_eq_false_iff_ne.mpr (keep_char_ne c (h c hc) '.' (by decide)),
      keep_not_ws c (h c hc)])]
  exact List.filter_eq_self.mpr h

theorem data_ne_nil_of_ne_empty (s : String) (h : s ≠ "") : s.data ≠ [] := by
  intro hd
  exact h (congrArg String.mk hd)

theorem normalizeParamName_clean (s : String) (hne : s ≠ "")
    (h : ∀ c ∈ s.data, isKeepChar c = true) : normalizeParamName s = some s := by
  have hws : ∀ c ∈ s.data, isJsWs c = false := fun c hc => keep_not_ws c (h c hc)
  have hdata : s.data ≠ [] := data_ne_nil_of_ne_empty s hne
  have hq : ∀ c ∈ s.data, (!(c == '?')) = true := fun c hc => by
    simp [beq_eq_false_iff_ne.mpr (keep_char_ne c (h c hc) '?' (by decide))]
  have he : ∀ c ∈ s.data, (!(c == '=')) = true := fun c hc => by
    simp [beq_eq_false_iff_ne.mpr (keep_char_ne c (h c hc) '=' (by decide))]
  have hcolon : s.data.contains ':' = false := by
    simp only [List.contains, List.elem_eq_mem, decide_eq_false_iff_not]
    intro hmem
    exact keep_char_ne ':' (h ':' hmem) ':' (by decide) rfl
  simp only [normalizeParamName]
  rw [if_neg hne, jsTrim_eq_self s.data hws, if_neg hdata, dropEllipsis_eq_self s.data h,
    List.filter_eq_self.mpr hq, takeWhile_all_true _ s.data he, jsTrim_eq_self s.data hws,
    if_neg hdata, if_neg (by rw [hcolon]; decide), wsSplit_single s.data hdata hws]
  show some (String.mk (stripTokenL s.data)) = some s
  rw [stripTokenL_eq_self s.data h]

theorem splitParamsCore_keep_consume :
    ∀ (cs : List Char), (∀ c ∈ cs, isKeepChar c = true) →
    ∀ (rest cur : List Char),
    splitParamsCore (cs ++ rest) cur 0 = splitParamsCore rest (cur ++ cs) 0 := by
  intro cs
  induction cs with
  | nil => intro _ rest cur; simp
  | cons c cs ih =>
    intro h rest cur
    have hk := h c (List.mem_cons_self c cs)
    have hop : (c == '(' || c == '[' || c == lbrace || c == '<') = false := by
      simp [beq_eq_false_iff_ne.mpr (keep_char_ne c hk '(' (by decide)),
        beq_eq_false_iff_ne.mpr (keep_char_ne c hk '[' (by decide)),
        beq_eq_false_iff_ne.mpr (keep_char_ne c hk lbrace (by decide)),
        beq_eq_false_iff_ne.mpr (keep_char_ne c hk '<' (by decide))]
    have hcl : (c == ')' || c == ']' || c == rbrace || c == '>') = false := by
      simp [beq_eq_false_iff_ne.mpr (keep_char_ne c hk ')' (by decide)),
        beq_eq_false_iff_ne.mpr (keep_char_ne c hk ']' (by decide)),
        beq_eq_false_iff_ne.mpr (keep_char_ne c hk rbrace (by decide)),
        beq_eq_false_iff_ne.mpr (keep_char_ne c hk '>' (by decide))]
    have hcomma : (c == ',') = false :=
      beq_eq_false_iff_ne.mpr (keep_char_ne c hk ',' (by decide))
    show splitParamsCore (c :: (cs ++ rest)) cur 0 = _
    simp only [splitParamsCore, hop, hcl, hcomma, Bool.false_and, if_false, Bool.false_eq_true]
    rw [ih (fun d hd => h d (List.mem_cons_of_mem c hd)) rest (cur ++ [c]), List.append_assoc]
    rfl

theorem splitParamsCore_comma (rest cur : List Char) :
    splitParamsCore (',' :: rest) cur 0 = cur :: splitParamsCore rest [] 0 := rfl

theorem splitParamsCore_join :
    ∀ (names : List (List Char)),
    (∀ x ∈ names, x ≠ [] ∧ ∀ c ∈ x, isKeepChar c = true) →
    splitParamsCore (joinCommaL names) [] 0 = names := by
  intro names
  induction names with
  | nil => intro _; rfl
  | cons x rest ih =>
    intro h
    obtain ⟨hxne, hxkeep⟩ := h x (List.mem_cons_self x rest)
    cases rest with
    | nil =>
      show splitParamsCore x [] 0 = [x]
      rw [← List.append_nil x, splitParamsCore_keep_consume x hxkeep [] []]
      simp [splitParamsCore, hxne]
    | cons y rest' =>
      show splitParamsCore (x ++ ',' :: joinCommaL (y :: rest')) [] 0 = x :: y :: rest'
      rw [splitParamsCore_keep_consume x hxkeep (',' :: joinCommaL (y :: rest')) [],
        List.nil_append, splitParamsCore_comma]
      rw [ih (fun z hz => h z (List.mem_cons_of_mem x hz))]

theorem joinCommaL_ne_nil (x : List Char) (xs : List (List Char)) (hx : x ≠ []) :
    joinCommaL (x :: xs) ≠ [] := by
  cases xs with
  | nil => exact hx
  | cons y ys => simp [joinCommaL, hx]

theorem normalizeNames_clean :
    ∀ (L : List String), (∀ s ∈ L, s ≠ "" ∧ ∀ c ∈ s.data, isKeepChar c = true) →
    normalizeNames L = some L := by
  intro L
  induction L with
  | nil => intro _; rfl
  | cons s L ih =>
    intro h
    obtain ⟨h1, h2⟩ := h s (List.mem_cons_self s L)
    simp only [normalizeNames, normalizeParamName_clean s h1 h2,
      ih (fun t ht => h t (List.mem_cons_of_mem s ht))]

/-- C7: parameter-list normalization is idempotent — where it returns a
name list, re-normalizing the comma-joined list returns the same list,
and where it throws, the composite throws the same way (Kleisli
idempotence over the error monad). -/
theorem normalizeParamList_idempotent (P : String) :
    (normalizeParamList P).bind (fun v => normalizeParamList (paramKey v)) =
      normalizeParamList P := by
  rcases hn : normalizeParamList P with _ | L
  · rfl
  · show normalizeParamList (paramKey L) = some L
    have hmem : ∀ s ∈ L, s ≠ "" ∧ ∀ c ∈ s.data, isKeepChar c = true :=
      fun s hs => normalizeParamList_mem P s L hn hs
    rcases L with _ | ⟨n, rest⟩
    · rfl
    · have hne : paramKey (n :: rest) ≠ "" := by
        intro hempty
        have hd := congrArg String.data hempty
        simp only [paramKey, joinComma] at hd
        exact joinCommaL_ne_nil n.data (rest.map String.data)
          (data_ne_nil_of_ne_empty n ((hmem n (List.mem_cons_self n rest)).1)) hd
      unfold normalizeParamList
      rw [if_neg hne]
      have hsplit : splitParams (paramKey (n :: rest)) = n :: rest := by
        unfold splitParams paramKey joinComma
        rw [show (String.mk (joinCommaL ((n :: rest).map String.data))).data =
          joinCommaL ((n :: rest).map String.data) from rfl]
        rw [splitParamsCore_join ((n :: rest).map String.data) (by
          intro x hx
          obtain ⟨s, hs, hsx⟩ := List.mem_map.mp hx
          obtain ⟨hs1, hs2⟩ := hmem s hs
          exact ⟨hsx ▸ data_ne_nil_of_ne_empty s hs1, hsx ▸ hs2⟩)]
        rw [List.map_map]
        exact (List.map_congr_left (fun s _ => rfl)).trans (List.map_id _)
      rw [hsplit, normalizeNames_clean (n :: rest) hmem, Option.map_some']
      exact congrArg some
        (List.filter_eq_self.mpr (fun s hs => by simp [(hmem s hs).1]))

theorem takeWhile_append_stop (p : Char → Bool) :
    ∀ (xs : List Char) (y : Char) (ys : List Char),
    (∀ x ∈ xs, p x = true) → p y = false →
    ((xs ++ y :: ys).takeWhile p = xs ∧ (xs ++ y :: ys).dropWhile p = y :: ys) := by
  intro xs
  induction xs with
  | nil =>
    intro y ys _ hy
    constructor
    · simp [List.takeWhile_cons, hy]
    · simp [List.dropWhile_cons, hy]
  | cons x xs ih =>
    intro y ys hxs hy
    obtain ⟨iht, ihd⟩ := ih y ys (fun z hz => hxs z (List.mem_cons_of_mem x hz)) hy
    constructor
    · simp [List.takeWhile_cons, hxs x (List.mem_cons_self x xs), iht]
    · simp [List.dropWhile_cons, hxs x (List.mem_cons_self x xs), ihd]

theorem length_dropWhile_le (p : Char → Bool) (l : List Char) :
    (l.dropWhile p).length ≤ l.length := by
  have h := congrArg List.length (List.takeWhile_append_dropWhile p l)
  rw [List.length_append] at h
  omega

theorem braceReplF_fuel_irrel :
    ∀ (f₁ : Nat) (l : List Char) (f₂ : Nat), l.length < f₁ → l.length < f₂ →
    braceReplF f₁ l = braceReplF f₂ l := by
  intro f₁
  induction f₁ with
  | zero => intro l f₂ h₁ _; exact absurd h₁ (Nat.not_lt_zero _)
  | succ f₁ ih =>
    intro l f₂ h₁ h₂
    cases f₂ with
    | zero => exact absurd h₂ (Nat.not_lt_zero _)
    | succ f₂ =>
      cases l with
      | nil => rfl
      | cons c rest =>
        have hrest₁ : rest.length < f₁ := by simpa using Nat.lt_of_succ_lt_succ h₁
        have hrest₂ : rest.length < f₂ := by simpa using Nat.lt_of_succ_lt_succ h₂
        simp only [braceReplF]
        by_cases hc : c = lbrace
        · rw [if_pos hc, if_pos hc]
          by_cases hd : rest.dropWhile (fun ch => !(ch == rbrace)) = []
          · rw [if_pos hd, if_pos hd, ih rest f₂ hrest₁ hrest₂]
          · rw [if_neg hd, if_neg hd]
            by_cases hi : rest.takeWhile (fun ch => !(ch == rbrace)) = []
            · rw [if_pos hi, if_pos hi, ih rest f₂ hrest₁ hrest₂]
            · rw [if_neg hi, if_neg hi]
              have htail : (rest.dropWhile (fun ch => !(ch == rbrace))).tail.length < rest.length := by
                have h1 := length_dropWhile_le (fun ch => !(ch == rbrace)) rest
                have h2 : (rest.dropWhile (fun ch => !(ch == rbrace))).length ≠ 0 := by
                  simpa [List.length_eq_zero] using hd
                rw [List.length_tail]
                omega
              rw [ih _ f₂ (htail.trans hrest₁) (htail.trans hrest₂)]
        · rw [if_neg hc, if_neg hc, ih rest f₂ hrest₁ hrest₂]

theorem colonReplF_fuel_irrel :
    ∀ (f₁ : Nat) (l : List Char) (f₂ : Nat), l.length < f₁ → l.length < f₂ →
    colonReplF f₁ l = colonReplF f₂ l := by
  intro f₁
  induction f₁ with
  | zero => intro l f₂ h₁ _; exact absurd h₁ (Nat.not_lt_zero _)
  | succ f₁ ih =>
    intro l f₂ h₁ h₂
    cases f₂ with
    | zero => exact absurd h₂ (Nat.not_lt_zero _)
    | succ f₂ =>
      cases l with
      | nil => rfl
      | cons c rest =>
        have hrest₁ : rest.length < f₁ := by simpa using Nat.lt_of_succ_lt_succ h₁
        have hrest₂ : rest.length < f₂ := by simpa using Nat.lt_of_succ_lt_succ h₂
        simp only [colonReplF]
        by_cases hc : c = ':'
        · rw [if_pos hc, if_pos hc]
          by_cases ht : rest.takeWhile (fun ch => !(ch == '/')) = []
          · rw [if_pos ht, if_pos ht, ih rest f₂ hrest₁ hrest₂]
          · rw [if_neg ht, if_neg ht]
            have hdrop : (rest.dropWhile (fun ch => !(ch == '/'))).length < rest.length := by
              have hsplit := List.takeWhile_append_dropWhile (fun ch => !(ch == '/')) rest
              have hlen := congrArg List.length hsplit
              rw [List.length_append] at hlen
              have : (rest.takeWhile (fun ch => !(ch == '/'))).length ≠ 0 := by
                simpa [List.length_eq_zero] using ht
              omega
            rw [ih _ f₂ (hdrop.trans hrest₁) (hdrop.trans hrest₂)]
        · rw [if_neg hc, if_neg hc, ih rest f₂ hrest₁ hrest₂]

theorem braceRepl_cons_ne (c : Char) (rest : List Char) (hc : ¬(c = lbrace)) :
    braceRepl (c :: rest) = c :: braceRepl rest := by
  show braceReplF (rest.length + 1 + 1) (c :: rest) = c :: braceReplF (rest.length + 1) rest
  simp only [braceReplF]
  rw [if_neg hc]

theorem colonRepl_cons_ne (c : Char) (rest : List Char) (hc : ¬(c = ':')) :
    colonRepl (c :: rest) = c :: colonRepl rest := by
  show colonReplF (rest.length + 1 + 1) (c :: rest) = c :: colonReplF (rest.length + 1) rest
  simp only [colonReplF]
  rw [if_neg hc]

theorem braceRepl_append_no_brace :
    ∀ (xs ys : List Char), (∀ c ∈ xs, ¬(c = lbrace)) →
    braceRepl (xs ++ ys) = xs ++ braceRepl ys := by
  intro xs
  induction xs with
  | nil => intro ys _; rfl
  | cons c xs ih =>
    intro ys h
    rw [List.cons_append, braceRepl_cons_ne c (xs ++ ys) (h c (List.mem_cons_self c xs)),
      ih ys (fun d hd => h d (List.mem_cons_of_mem c hd)), List.cons_append]

theorem colonRepl_append_no_colon :
    ∀ (xs ys : List Char), (∀ c ∈ xs, ¬(c = ':')) →
    colonRepl (xs ++ ys) = xs ++ colonRepl ys := by
  intro xs
  induction xs with
  | nil => intro ys _; rfl
  | cons c xs ih =>
    intro ys h
    rw [List.cons_append, colonRepl_cons_ne c (xs ++ ys) (h c (List.mem_cons_self c xs)),
      ih ys (fun d hd => h d (List.mem_cons_of_mem c hd)), List.cons_append]

theorem braceRepl_no_brace_id (l : List Char) (h : ∀ c ∈ l, ¬(c = lbrace)) :
    braceRepl l = l := by
  have hb := braceRepl_append_no_brace l [] h
  rw [List.append_nil] at hb
  rw [show braceRepl ([] : List Char) = [] from rfl, List.append_nil] at hb
  exact hb

theorem braceRepl_placeholder (p rest : List Char) (hp : p ≠ [])
    (hpr : ∀ c ∈ p, ¬(c = rbrace)) :
    braceRepl (lbrace :: (p ++ rbrace :: rest)) = (":param").data ++ braceRepl rest := by
  have hstop := takeWhile_append_stop (fun ch => !(ch == rbrace)) p rbrace rest
    (fun c hc => by simp [beq_eq_false_iff_ne.mpr (hpr c hc)]) (by simp)
  show braceReplF ((p ++ rbrace :: rest).length + 1 + 1) (lbrace :: (p ++ rbrace :: rest)) = _
  simp only [braceReplF, if_true]
  rw [hstop.2, hstop.1, if_neg (by simp), if_neg hp, List.tail_cons]
  congr 1
  exact braceReplF_fuel_irrel ((p ++ rbrace :: rest).length + 1) rest (rest.length + 1)
    (by simp; omega) (Nat.lt_succ_self _)

theorem colonRepl_token (p rest : List Char) (hp : p ≠ []) (hps : ∀ c ∈ p, ¬(c = '/'))
    (hrest : rest = [] ∨ ∃ t, rest = '/' :: t) :
    colonRepl (':' :: (p ++ rest)) = (":param").data ++ colonRepl rest := by
  have htake : (p ++ rest).takeWhile (fun ch => !(ch == '/')) = p ∧
      (p ++ rest).dropWhile (fun ch => !(ch == '/')) = rest := by
    rcases hrest with rfl | ⟨t, rfl⟩
    · rw [List.append_nil]
      constructor
      · exact takeWhile_all_true _ p (fun c hc => by simp [beq_eq_false_iff_ne.mpr (hps c hc)])
      · exact List.dropWhile_eq_nil_iff.mpr (fun c hc => by
          simp [beq_eq_false_iff_ne.mpr (hps c hc)])
    · exact takeWhile_append_stop (fun ch => !(ch == '/')) p '/' t
        (fun c hc => by simp [beq_eq_false_iff_ne.mpr (hps c hc)]) (by simp)
  show colonReplF ((p ++ rest).length + 1 + 1) (':' :: (p ++ rest)) = _
  simp only [colonReplF, if_true]
  rw [htake.1, if_neg hp, htake.2]
  congr 1
  exact colonReplF_fuel_irrel ((p ++ rest).length + 1) rest (rest.length + 1)
    (by simp; omega) (Nat.lt_succ_self _)

theorem renderBrace_shape (segs : List PathSeg) :
    renderBrace segs = [] ∨ ∃ t, renderBrace segs = '/' :: t := by
  cases segs with
  | nil => exact Or.inl rfl
  | cons s rest => cases s <;> exact Or.inr ⟨_, rfl⟩

theorem renderColon_shape (segs : List PathSeg) :
    renderColon segs = [] ∨ ∃ t, renderColon segs = '/' :: t := by
  cases segs with
  | nil => exact Or.inl rfl
  | cons s rest => cases s <;> exact Or.inr ⟨_, rfl⟩

theorem renderCanon_shape (segs : List PathSeg) :
    renderCanon segs = [] ∨ ∃ t, renderCanon segs = '/' :: t := by
  cases segs with
  | nil => exact Or.inl rfl
  | cons s rest => cases s <;> exact Or.inr ⟨_, rfl⟩

theorem renderBrace_ne_nil (s : PathSeg) (rest : List PathSeg) : renderBrace (s :: rest) ≠ [] := by
  cases s <;> simp [renderBrace]

theorem renderColon_ne_nil (s : PathSeg) (rest : List PathSeg) : renderColon (s :: rest) ≠ [] := by
  cases s <;> simp [renderColon]

theorem goodParam_data_ne_nil (p : String) (h : goodParam p) : p.data ≠ [] :=
  data_ne_nil_of_ne_empty p h.1

theorem goodLit_data_ne_nil (s : String) (h : goodLit s) : s.data ≠ [] :=
  data_ne_nil_of_ne_empty s h.1

theorem renderBrace_no_ws (segs : List PathSeg) (h : ∀ s ∈ segs, goodSeg s) :
    ∀ c ∈ renderBrace segs, isJsWs c = false := by
  induction segs with
  | nil => intro c hc; exact absurd hc (List.not_mem_nil c)
  | cons s rest ih =>
    have hs := h s (List.mem_cons_self s rest)
    have ihr := ih (fun u hu => h u (List.mem_cons_of_mem s hu))
    intro c hc
    cases s with
    | lit t =>
      rcases List.mem_cons.mp hc with rfl | hc'
      · decide
      · rcases List.mem_append.mp hc' with hm | hm
        · exact (hs.2 c hm).1
        · exact ihr c hm
    | param p =>
      rcases List.mem_cons.mp hc with rfl | hc'
      · decide
      · rcases List.mem_cons.mp hc' with rfl | hc''
        · decide
        · rcases List.mem_append.mp hc'' with hm | hm
          · exact (hs.2 c hm).1
          · rcases List.mem_cons.mp hm with rfl | hm'
            · decide
            · exact ihr c hm'

theorem renderColon_no_ws (segs : List PathSeg) (h : ∀ s ∈ segs, goodSeg s) :
    ∀ c ∈ renderColon segs, isJsWs c = false := by
  induction segs with
  | nil => intro c hc; exact absurd hc (List.not_mem_nil c)
  | cons s rest ih =>
    have hs := h s (List.mem_cons_self s rest)
    have ihr := ih (fun u hu => h u (List.mem_cons_of_mem s hu))
    intro c hc
    cases s with
    | lit t =>
      rcases List.mem_cons.mp hc with rfl | hc'
      · decide
      · rcases List.mem_append.mp hc' with hm | hm
        · exact (hs.2 c hm).1
        · exact ihr c hm
    | param p =>
      rcases List.mem_cons.mp hc with rfl | hc'
      · decide
      · rcases List.mem_cons.mp hc' with rfl | hc''
        · decide
        · rcases List.mem_append.mp hc'' with hm | hm
          · exact (hs.2 c hm).1
          · exact ihr c hm

theorem renderColon_no_lbrace (segs : List PathSeg) (h : ∀ s ∈ segs, goodSeg s) :
    ∀ c ∈ renderColon segs, ¬(c = lbrace) := by
  induction segs with
  | nil => intro c hc; exact absurd hc (List.not_mem_nil c)
  | cons s rest ih =>
    have hs := h s (List.mem_cons_self s rest)
    have ihr := ih (fun u hu => h u (List.mem_cons_of_mem s hu))
    intro c hc
    cases s with
    | lit t =>
      rcases List.mem_cons.mp hc with rfl | hc'
      · decide
      · rcases List.mem_append.mp hc' with hm | hm
        · exact (hs.2 c hm).2.1
        · exact ihr c hm
    | param p =>
      rcases List.mem_cons.mp hc with rfl | hc'
      · decide
      · rcases List.mem_cons.mp hc' with rfl | hc''
        · decide
        · rcases List.mem_append.mp hc'' with hm | hm
          · exact (hs.2 c hm).2.1
          · exact ihr c hm

theorem renderBrace_to_canon (segs : List PathSeg) (h : ∀ s ∈ segs, goodSeg s) :
    braceRepl (renderBrace segs) = renderCanon segs := by
  induction segs with
  | nil => rfl
  | cons s rest ih =>
    have hs := h s (List.mem_cons_self s rest)
    have ihr := ih (fun u hu => h u (List.mem_cons_of_mem s hu))
    cases s with
    | lit t =>
      show braceRepl ('/' :: (t.data ++ renderBrace rest)) = '/' :: (t.data ++ renderCanon rest)
      rw [braceRepl_cons_ne '/' _ (by decide),
        braceRepl_append_no_brace t.data _ (fun c hc => (hs.2 c hc).2.1), ihr]
    | param p =>
      show braceRepl ('/' :: lbrace :: (p.data ++ rbrace :: renderBrace rest)) =
        '/' :: ((":param").data ++ renderCanon rest)
      rw [braceRepl_cons_ne '/' _ (by decide),
        braceRepl_placeholder p.data _ (goodParam_data_ne_nil p hs)
          (fun c hc => (hs.2 c hc).2.2.1), ihr]

theorem renderColon_to_canon (segs : List PathSeg) (h : ∀ s ∈ segs, goodSeg s) :
    colonRepl (renderColon segs) = renderCanon segs := by
  induction segs with
  | nil => rfl
  | cons s rest ih =>
    have hs := h s (List.mem_cons_self s rest)
    have ihr := ih (fun u hu => h u (List.mem_cons_of_mem s hu))
    cases s with
    | lit t =>
      show colonRepl ('/' :: (t.data ++ renderColon rest)) = '/' :: (t.data ++ renderCanon rest)
      rw [colonRepl_cons_ne '/' _ (by decide),
        colonRepl_append_no_colon t.data _ (fun c hc => (hs.2 c hc).2.2.2.2), ihr]
    | param p =>
      show colonRepl ('/' :: ':' :: (p.data ++ renderColon rest)) =
        '/' :: ((":param").data ++ renderCanon rest)
      rw [colonRepl_cons_ne '/' _ (by decide),
        colonRepl_token p.data (renderColon rest) (goodParam_data_ne_nil p hs)
          (fun c hc => (hs.2 c hc).2.2.2)
          (by
            rcases renderColon_shape rest with hr | ⟨t, ht⟩
            · exact Or.inl hr
            · exact Or.inr ⟨t, ht⟩),
        ihr]

theorem colonRepl_canon_id (segs : List PathSeg) (h : ∀ s ∈ segs, goodSeg s) :
    colonRepl (renderCanon segs) = renderCanon segs := by
  induction segs with
  | nil => rfl
  | cons s rest ih =>
    have hs := h s (List.mem_cons_self s rest)
    have ihr := ih (fun u hu => h u (List.mem_cons_of_mem s hu))
    cases s with
    | lit t =>
      show colonRepl ('/' :: (t.data ++ renderCanon rest)) = '/' :: (t.data ++ renderCanon rest)
      rw [colonRepl_cons_ne '/' _ (by decide),
        colonRepl_append_no_colon t.data _ (fun c hc => (hs.2 c hc).2.2.2.2), ihr]
    | param p =>
      show colonRepl ('/' :: ':' :: (("param").data ++ renderCanon rest)) =
        '/' :: ':' :: (("param").data ++ renderCanon rest)
      rw [colonRepl_cons_ne '/' _ (by decide),
        colonRepl_token ("param").data (renderCanon rest) (by decide) (by decide)
          (by
            rcases renderCanon_shape rest with hr | ⟨t, ht⟩
            · exact Or.inl hr
            · exact Or.inr ⟨t, ht⟩),
        ihr]
      rfl

theorem renderBrace_getLast (segs : List PathSeg) :
    ∀ (s0 : PathSeg), (∀ s ∈ s0 :: segs, goodSeg s) →
    ∃ c, (renderBrace (s0 :: segs)).getLast? = some c ∧ ¬(c = '/') := by
  induction segs with
  | nil =>
    intro s0 h
    have hs := h s0 (List.mem_cons_self _ _)
    cases s0 with
    | lit t =>
      rcases hlast : t.data.getLast? with _ | d
      · exact absurd (List.getLast?_eq_none_iff.mp hlast) (goodLit_data_ne_nil t hs)
      · refine ⟨d, ?_, (hs.2 d (List.mem_of_getLast?_eq_some hlast)).2.2.2.1⟩
        have hrw : renderBrace [PathSeg.lit t] = ['/'] ++ t.data := by simp [renderBrace]
        rw [hrw, List.getLast?_append, hlast, Option.or_some]
    | param p =>
      refine ⟨rbrace, ?_, by decide⟩
      have hrw : renderBrace [PathSeg.param p] = ('/' :: lbrace :: p.data) ++ [rbrace] := by
        simp [renderBrace]
      rw [hrw, List.getLast?_concat]
  | cons r rest ih =>
    intro s0 h
    obtain ⟨c, hc, hcs⟩ := ih r (fun u hu => h u (List.mem_cons_of_mem s0 hu))
    cases s0 with
    | lit t =>
      refine ⟨c, ?_, hcs⟩
      have hrw : renderBrace (PathSeg.lit t :: r :: rest) =
          ('/' :: t.data) ++ renderBrace (r :: rest) := by simp [renderBrace]
      rw [hrw, List.getLast?_append, hc, Option.or_some]
    | param p =>
      refine ⟨c, ?_, hcs⟩
      have hrw : renderBrace (PathSeg.param p :: r :: rest) =
          ('/' :: lbrace :: (p.data ++ [rbrace])) ++ renderBrace (r :: rest) := by
        simp [renderBrace]
      rw [hrw, List.getLast?_append, hc, Option.or_some]

theorem renderColon_getLast (segs : List PathSeg) :
    ∀ (s0 : PathSeg), (∀ s ∈ s0 :: segs, goodSeg s) →
    ∃ c, (renderColon (s0 :: segs)).getLast? = some c ∧ ¬(c = '/') := by
  induction segs with
  | nil =>
    intro s0 h
    have hs := h s0 (List.mem_cons_self _ _)
    cases s0 with
    | lit t =>
      rcases hlast : t.data.getLast? with _ | d
      · exact absurd (List.getLast?_eq_none_iff.mp hlast) (goodLit_data_ne_nil t hs)
      · refine ⟨d, ?_, (hs.2 d (List.mem_of_getLast?_eq_some hlast)).2.2.2.1⟩
        have hrw : renderColon [PathSeg.lit t] = ['/'] ++ t.data := by simp [renderColon]
        rw [hrw, List.getLast?_append, hlast, Option.or_some]
    | param p =>
      rcases hlast : p.data.getLast? with _ | d
      · exact absurd (List.getLast?_eq_none_iff.mp hlast) (goodParam_data_ne_nil p hs)
      · refine ⟨d, ?_, (hs.2 d (List.mem_of_getLast?_eq_some hlast)).2.2.2⟩
        have hrw : renderColon [PathSeg.param p] = ['/', ':'] ++ p.data := by simp [renderColon]
        rw [hrw, List.getLast?_append, hlast, Option.or_some]
  | cons r rest ih =>
    intro s0 h
    obtain ⟨c, hc, hcs⟩ := ih r (fun u hu => h u (List.mem_cons_of_mem s0 hu))
    cases s0 with
    | lit t =>
      refine ⟨c, ?_, hcs⟩
      have hrw : renderColon (PathSeg.lit t :: r :: rest) =
          ('/' :: t.data) ++ renderColon (r :: rest) := by simp [renderColon]
      rw [hrw, List.getLast?_append, hc, Option.or_some]
    | param p =>
      refine ⟨c, ?_, hcs⟩
      have hrw : renderColon (PathSeg.param p :: r :: rest) =
          ('/' :: ':' :: p.data) ++ renderColon (r :: rest) := by simp [renderColon]
      rw [hrw, List.getLast?_append, hc, Option.or_some]

theorem stripTrailingSlashes_id (l : List Char) (h : ∀ c, l.getLast? = some c → ¬(c = '/')) :
    stripTrailingSlashes l = l := by
  unfold stripTrailingSlashes
  rcases hr : l.reverse with _ | ⟨c, t⟩
  · simp [List.reverse_eq_nil_iff.mp hr]
  · have hc : l.getLast? = some c := by rw [List.getLast?_eq_head?_reverse, hr]; rfl
    rw [List.dropWhile_cons,
      show ((c == '/') : Bool) = false from beq_eq_false_iff_ne.mpr (h c hc)]
    simp only [Bool.false_eq_true, if_false]
    rw [← hr, List.reverse_reverse]

theorem normalizePath_chars (l : List Char) (hne : l ≠ [])
    (hws : ∀ c ∈ l, isJsWs c = false)
    (hlast : ∀ c, l.getLast? = some c → ¬(c = '/')) :
    normalizePath (String.mk l) =
      (if colonRepl (braceRepl l) = [] then "/" else String.mk (colonRepl (braceRepl l))) := by
  simp only [normalizePath]
  rw [if_neg (fun hmk => hne (congrArg String.data hmk))]
  rw [jsTrim_eq_self l hws, stripTrailingSlashes_id l hlast]

/-- C4: `normalizePath` maps the brace-placeholder and colon-placeholder
renderings of any well-formed path template to the same canonical key,
and a code endpoint `GET /users/:id` compared against a documented
`GET /users/{id}` produces zero Findings. -/
theorem normalizePath_placeholder_equivalence :
    (∀ (segs : List PathSeg), (∀ s ∈ segs, goodSeg s) →
      normalizePath (String.mk (renderBrace segs)) =
        normalizePath (String.mk (renderColon segs)))
    ∧ (∀ fullScan : Bool,
        compareEndpoints [⟨"endpoint", "GET /users/:id", "GET /users/:id", "r.js", 1⟩]
          [⟨"GET", "/users/{id}", "api.md"⟩] "warning" fullScan = []) := by
  constructor
  · intro segs hgood
    cases segs with
    | nil => rfl
    | cons s0 rest =>
      obtain ⟨cB, hB, hBs⟩ := renderBrace_getLast rest s0 hgood
      obtain ⟨cC, hC, hCs⟩ := renderColon_getLast rest s0 hgood
      rw [normalizePath_chars (renderBrace (s0 :: rest)) (renderBrace_ne_nil s0 rest)
          (renderBrace_no_ws _ hgood)
          (fun c hc => by rw [hB] at hc; exact (Option.some.inj hc) ▸ hBs),
        normalizePath_chars (renderColon (s0 :: rest)) (renderColon_ne_nil s0 rest)
          (renderColon_no_ws _ hgood)
          (fun c hc => by rw [hC] at hc; exact (Option.some.inj hc) ▸ hCs),
        renderBrace_to_canon _ hgood, colonRepl_canon_id _ hgood,
        braceRepl_no_brace_id _ (renderColon_no_lbrace _ hgood), renderColon_to_canon _ hgood]
  · intro fullScan
    cases fullScan <;> rfl

/-- Witness for C4 at the template `/users/{id}` vs `/users/:id`. -/
theorem normalizePath_placeholder_equivalence_witness :
    normalizePath (String.mk (renderBrace [PathSeg.lit "users", PathSeg.param "id"])) =
      normalizePath (String.mk (renderColon [PathSeg.lit "users", PathSeg.param "id"])) ∧
    compareEndpoints [⟨"endpoint", "GET /users/:id", "GET /users/:id", "r.js", 1⟩]
      [⟨"GET", "/users/{id}", "api.md"⟩] "warning" true = [] :=
  ⟨normalizePath_placeholder_equivalence.1 [PathSeg.lit "users", PathSeg.param "id"]
    (by
      intro s hs
      rcases List.mem_cons.mp hs with rfl | hs'
      · exact ⟨by decide, by decide⟩
      · rcases List.mem_cons.mp hs' with rfl | hs''
        · exact ⟨by decide, by decide⟩
        · exact absurd hs'' (List.not_mem_nil s)),
    normalizePath_placeholder_equivalence.2 true⟩

end DriftGuardian
